import Mathlib

set_option autoImplicit false

/-!
# Verification of the acl-firestore-backend batch mutation engine

Shallow embedding of `src/backend.ts` (class `FirestoreBackend`).

Modelling choices:
* Strings are `List Char` (`Str`), so that the identifier codec
  (`split('.')` / `join('.')`) can be reasoned about structurally.
* A Firestore document is an association list `Data = List (Str × DVal)`
  mirroring a JavaScript object: entry order is insertion order, and
  property assignment (`data[k] = v`) replaces in place or appends
  (`setKey`).  `Object.assign({}, a, b)` is `jsAssign`.
* A stored attribute value (`DVal`) is either a boolean (member flags
  written by `add`/`remove`) or a string (the reserved `@@bucket`
  attribute).  JavaScript truthiness of these values is `DVal.truthy`.
* The Firestore store is a function `Store = Str → Option Data` from
  document id to document content (`none` = document does not exist).
* `end` (the commit entry point; named `endWrites`/`endState` here since
  `end` is a Lean keyword) runs inside one atomic transaction: it either
  produces the full list of staged writes (exactly one `tx.delete`/`tx.set`
  per touched id, in working-set order), or fails (`none`, e.g. the
  `assert.ok(!doc.deleted)` on update-after-delete), in which case the
  transaction rolls back and the store is unchanged (`endState` returns the
  input store).
* Keys passed by callers are already string-normalized (`String(key)` in
  the source); `makeArray` normalization is modelled by taking lists.
-/

namespace AclFirestore

/-- Strings, as lists of characters. -/
abbrev Str := List Char

/-- A stored attribute value: a boolean member flag, or a string (used for
the reserved bucket attribute). -/
inductive DVal where
  | b : Bool → DVal
  | s : Str → DVal
deriving DecidableEq, Repr

/-- JavaScript truthiness of a stored value (`!val` prunes falsy values):
`false` and the empty string are falsy. -/
def DVal.truthy : DVal → Bool
  | .b x => x
  | .s t => !t.isEmpty

/-- A document's content: a JavaScript-object-like association list from
attribute name to value (insertion order preserved). -/
abbrev Data := List (Str × DVal)

/-- Property read `d[k]`: first entry with key `k`. -/
def lookupKV : Data → Str → Option DVal
  | [], _ => none
  | kv :: rest, k => if kv.1 = k then some kv.2 else lookupKV rest k

/-- `Object.keys`. -/
def keysOf (d : Data) : List Str := d.map Prod.fst

/-- Well-formed JavaScript object: no duplicate property names. -/
abbrev NodupKeys (d : Data) : Prop := (keysOf d).Nodup

/-- Property assignment `d[k] = v`: replace in place if present, else
append. -/
def setKey (d : Data) (k : Str) (v : DVal) : Data :=
  if (lookupKV d k).isSome then
    d.map (fun kv => if kv.1 = k then (k, v) else kv)
  else d ++ [(k, v)]

/-- Build a JavaScript object from a list of entries by successive
assignment (the object `{...d}` denotes). -/
def objOf (d : Data) : Data := d.foldl (fun acc kv => setKey acc kv.1 kv.2) []

/-- `Object.assign({}, a, b)`: copy `a` into a fresh object, then assign
every entry of `b` in order. -/
def jsAssign (a b : Data) : Data :=
  b.foldl (fun acc kv => setKey acc kv.1 kv.2) (objOf a)

/-- The falsy-value pruning loop in `end`'s save phase
(`if (!val) delete data[key]`). -/
def prune (d : Data) : Data := d.filter (fun kv => kv.2.truthy)

/-- `delete d[k]`. -/
def removeKey (d : Data) (k : Str) : Data := d.filter (fun kv => kv.1 ≠ k)

/-- `const BUCKET_FIELD = '@@bucket'`. -/
def BUCKET_FIELD : Str := "@@bucket".toList

/-- `getId = (bucket, key) => [bucket, String(key)].join('.')`. -/
def getId (bucket key : Str) : Str := bucket ++ '.' :: key

/-- JavaScript `id.split('.')` (on the one-character separator). -/
def splitOnSep : Str → List Str
  | [] => [[]]
  | c :: rest =>
    if c = '.' then [] :: splitOnSep rest
    else
      match splitOnSep rest with
      | [] => [[c]]
      | seg :: segs => (c :: seg) :: segs

/-- `getBucketFromId = id => id.split('.').shift() || ''`.
`split` never returns an empty array, and `x || ''` maps the only falsy
string `''` to itself, so `headD []` captures both. -/
def getBucketFromId (id : Str) : Str := (splitOnSep id).headD []

/-- The document store: document id → content, `none` when the document
does not exist. -/
abbrev Store := Str → Option Data

/-- `snapToValues`: `data = snap.data() || {}` (missing document gives the
empty object), `delete data[BUCKET_FIELD]`, `Object.keys(data)`. -/
def snapToValues (snap : Option Data) : List Str :=
  keysOf (removeKey (snap.getD []) BUCKET_FIELD)

/-- `get(bucket, key)`: fetch one document; `[]` if it does not exist,
else `snapToValues`. -/
def get (s : Store) (bucket key : Str) : List Str :=
  match s (getId bucket key) with
  | none => []
  | some d => snapToValues (some d)

/-- Operation tags (`'update' | 'delete'`). -/
inductive OpType where
  | update
  | delete
deriving DecidableEq, Repr

/-- One pending operation; `data` is `{}` for `delete` operations
(the source reads it as `op.data || {}`). -/
structure Operation where
  id : Str
  type : OpType
  data : Data
deriving DecidableEq, Repr

/-- `begin()`: a fresh empty batch. -/
def beginBatch : List Operation := []

/-- The `reduce((data, val) => { data[val] = flag; return data }, {})`
loops of `add` / `remove`. -/
def dataOfValues (flag : Bool) (values : List Str) : Data :=
  values.foldl (fun data v => setKey data v (.b flag)) []

/-- `add(ops, bucket, key, values)`: push one `update` operation marking
every value present. -/
def add (ops : List Operation) (bucket key : Str) (values : List Str) :
    List Operation :=
  ops ++ [{ id := getId bucket key, type := .update,
            data := dataOfValues true values }]

/-- `remove(ops, bucket, key, values)`: push one `update` operation
marking every value absent. -/
def remove (ops : List Operation) (bucket key : Str) (values : List Str) :
    List Operation :=
  ops ++ [{ id := getId bucket key, type := .update,
            data := dataOfValues false values }]

/-- `del(ops, bucket, keys)`: push one `delete` operation per key. -/
def del (ops : List Operation) (bucket : Str) (keys : List Str) :
    List Operation :=
  ops ++ keys.map (fun key =>
    { id := getId bucket key, type := .delete, data := [] })

/-- Per-id entry of the transaction working set (`docs[id]`). -/
structure DocState where
  deleted : Bool
  snapData : Data
deriving Repr

/-- Appending to a list only if absent: the effect of the
`if (!docs[op.id])` guard on the `refs` array, and of JavaScript `Set`
insertion. -/
def insertFirst {α : Type} [DecidableEq α] (acc : List α) (x : α) : List α :=
  if x ∈ acc then acc else acc ++ [x]

/-- The distinct ids referenced by the batch, in first-occurrence order
(the `refs` array / the keys of the `docs` object). -/
def collectIds (ops : List Operation) : List Str :=
  ops.foldl (fun acc op => insertFirst acc op.id) []

/-- Working set after the multi-get: nothing deleted, `snapData` is the
fetched document content (`{}` when the document does not exist). -/
def initDocs (s : Store) : Str → DocState :=
  fun i => { deleted := false, snapData := (s i).getD [] }

/-- One step of the "apply operations" loop. `update` asserts the id is
not already marked deleted (`assert.ok(!doc.deleted)`; `none` = the
assertion throws and the transaction fails) and merges the operation data
with `Object.assign({}, doc.snapData || {}, op.data || {})`; `delete`
sets the deleted flag. -/
def applyOp (w : Str → DocState) (op : Operation) : Option (Str → DocState) :=
  match op.type with
  | .update =>
    if (w op.id).deleted then none
    else some (fun i =>
      if i = op.id then
        { deleted := (w op.id).deleted,
          snapData := jsAssign (w op.id).snapData op.data }
      else w i)
  | .delete =>
    some (fun i =>
      if i = op.id then { deleted := true, snapData := (w op.id).snapData }
      else w i)

/-- The "apply operations" loop, in batch order. -/
def foldOps : (Str → DocState) → List Operation → Option (Str → DocState)
  | w, [] => some w
  | w, op :: rest =>
    match applyOp w op with
    | none => none
    | some w' => foldOps w' rest

/-- The save phase for one id: prune falsy attribute values; if marked
deleted or nothing remains, stage `tx.delete` (`none`), else stage
`tx.set` (`some`) of the remaining data with
`data[BUCKET_FIELD] = getBucketFromId(id)`. -/
def finalizeDoc (id : Str) (st : DocState) : Option Data :=
  let data := prune st.snapData
  if st.deleted || data.isEmpty then none
  else some (setKey data BUCKET_FIELD (.s (getBucketFromId id)))

/-- The staged writes of `end`'s transaction: `none` if the transaction
function throws (update-after-delete), otherwise one staged write per
touched id, in working-set order. -/
def endWrites (s : Store) (ops : List Operation) :
    Option (List (Str × Option Data)) :=
  match foldOps (initDocs s) ops with
  | none => none
  | some w => some ((collectIds ops).map (fun i => (i, finalizeDoc i (w i))))

/-- Point update of a function-represented store / result object. -/
def updFn {β : Type} (r : Str → β) (k : Str) (v : β) : Str → β :=
  fun x => if x = k then v else r x

/-- Atomic application of the staged writes to the store. -/
def applyWrites (s : Store) (ws : List (Str × Option Data)) : Store :=
  ws.foldl (fun s' p => updFn s' p.1 p.2) s

/-- The store after `end(ops)`: unchanged when the transaction fails
(Firestore transactions are atomic), else all staged writes applied. -/
def endState (s : Store) (ops : List Operation) : Store :=
  match endWrites s ops with
  | none => s
  | some ws => applyWrites s ws

/-- `bucketIds(bucket, keys)`. -/
def bucketIds (bucket : Str) (keys : List Str) : List Str :=
  keys.map (fun key => getId bucket key)

/-- `Array.from(new Set(l))`: de-duplicate keeping first occurrences. -/
def jsDedup (l : List Str) : List Str := l.foldl insertFirst []

/-- `union(bucket, keys)`: multi-get, then for each existing snapshot
concatenate `Object.keys(docSnap.data())` — note: the raw keys, the
reserved `BUCKET_FIELD` is *not* removed here — then de-duplicate. -/
def union (s : Store) (bucket : Str) (keys : List Str) : List Str :=
  jsDedup (((bucketIds bucket keys).map s).foldl
    (fun result snap =>
      match snap with
      | some d => result ++ keysOf d
      | none => result)
    [])

/-- The initial `unions` result object: every input bucket mapped to
`[]`. -/
def unionsInit (buckets : List Str) : Str → Option (List Str) :=
  buckets.foldl (fun r b => updFn r b (some [])) (fun _ => none)

/-- One step of the `unions` snapshot loop:
`result[bucket] = result[bucket].concat(snapToValues(docSnap))` with
`bucket = getBucketFromId(docSnap.id)`. Reading `result[bucket]` when the
decoded bucket is not a key of the result object is a TypeError
(`undefined.concat`), modelled as `none`. -/
def unionsStep (r : Str → Option (List Str)) (p : Str × Option Data) :
    Option (Str → Option (List Str)) :=
  match r (getBucketFromId p.1) with
  | none => none
  | some cur =>
    some (updFn r (getBucketFromId p.1) (some (cur ++ snapToValues p.2)))

/-- The `docSnaps.forEach` loop of `unions`. -/
def unionsFold : (Str → Option (List Str)) → List (Str × Option Data) →
    Option (Str → Option (List Str))
  | r, [] => some r
  | r, p :: ps =>
    match unionsStep r p with
    | none => none
    | some r' => unionsFold r' ps

/-- The final `buckets.forEach` loop of `unions`:
`result[bucket] = Array.from(new Set(result[bucket] || []))`. -/
def unionsDedup (buckets : List Str) (r : Str → Option (List Str)) :
    Str → Option (List Str) :=
  buckets.foldl (fun r' b => updFn r' b (some (jsDedup ((r' b).getD [])))) r

/-- The `docRefs` ids of `unions`: `buckets.map(bucketIds).reduce(concat)`
— the bucket × key cross product, bucket-major. -/
def unionsDocIds (buckets keys : List Str) : List Str :=
  (buckets.map (fun bucket => bucketIds bucket keys)).foldl
    (fun all ids => all ++ ids) []

/-- `unions(buckets, keys)`: multi-get the bucket × key cross product,
group snapshot member sets by the bucket decoded from each snapshot id,
de-duplicate per input bucket.  `none` models the promise rejecting. -/
def unions (s : Store) (buckets keys : List Str) :
    Option (Str → Option (List Str)) :=
  match unionsFold (unionsInit buckets)
      ((unionsDocIds buckets keys).map (fun i => (i, s i))) with
  | none => none
  | some r => some (unionsDedup buckets r)


/-! ## Association-list lemmas -/

theorem keysOf_cons (kv : Str × DVal) (d : Data) :
    keysOf (kv :: d) = kv.1 :: keysOf d := rfl

theorem lookupKV_eq_none_iff (d : Data) (k : Str) :
    lookupKV d k = none ↔ k ∉ keysOf d := by
  induction d with
  | nil => simp [lookupKV, keysOf]
  | cons kv rest ih =>
    by_cases h : kv.1 = k
    · simp [lookupKV, h, keysOf_cons]
    · simp [lookupKV, h, keysOf_cons, ih, Ne.symm h]

theorem mem_of_lookupKV (d : Data) (k : Str) (v : DVal)
    (h : lookupKV d k = some v) : (k, v) ∈ d := by
  induction d with
  | nil => exact absurd h (by simp [lookupKV])
  | cons kv rest ih =>
    by_cases h1 : kv.1 = k
    · rw [lookupKV, if_pos h1] at h
      have hv : kv.2 = v := by injection h
      have : kv = (k, v) := by
        calc kv = (kv.1, kv.2) := rfl
          _ = (k, v) := by rw [h1, hv]
      exact this ▸ List.mem_cons_self kv rest
    · rw [lookupKV, if_neg h1] at h
      exact List.mem_cons_of_mem kv (ih h)

theorem mem_keysOf_of_lookupKV (d : Data) (k : Str) (v : DVal)
    (h : lookupKV d k = some v) : k ∈ keysOf d :=
  List.mem_map.2 ⟨(k, v), mem_of_lookupKV d k v h, rfl⟩

theorem lookupKV_isSome_iff (d : Data) (k : Str) :
    (lookupKV d k).isSome = true ↔ k ∈ keysOf d := by
  cases hl : lookupKV d k with
  | none => simp [(lookupKV_eq_none_iff d k).1 hl]
  | some v => simp [mem_keysOf_of_lookupKV d k v hl]

theorem mem_keysOf_iff (d : Data) (k : Str) :
    k ∈ keysOf d ↔ ∃ v, (k, v) ∈ d := by
  constructor
  · intro h
    obtain ⟨kv, hm, hk⟩ := List.mem_map.1 h
    exact ⟨kv.2, by rwa [show (k, kv.2) = kv from Prod.ext hk.symm rfl]⟩
  · rintro ⟨v, hv⟩
    exact List.mem_map.2 ⟨(k, v), hv, rfl⟩

theorem lookupKV_of_mem_nodup (d : Data) (k : Str) (v : DVal)
    (hd : NodupKeys d) (h : (k, v) ∈ d) : lookupKV d k = some v := by
  induction d with
  | nil => exact absurd h (by simp)
  | cons kv rest ih =>
    have hk1 : kv.1 ∉ keysOf rest := (List.nodup_cons.1 hd).1
    have hnd : NodupKeys rest := (List.nodup_cons.1 hd).2
    rcases List.mem_cons.1 h with h | h
    · rw [← h]
      simp [lookupKV]
    · have hne : kv.1 ≠ k := fun he =>
        hk1 (he ▸ List.mem_map.2 ⟨(k, v), h, rfl⟩)
      rw [lookupKV, if_neg hne]
      exact ih hnd h

theorem lookupKV_append (a b : Data) (k : Str) :
    lookupKV (a ++ b) k =
      match lookupKV a k with
      | some v => some v
      | none => lookupKV b k := by
  induction a with
  | nil => simp [lookupKV]
  | cons kv rest ih =>
    by_cases h : kv.1 = k
    · simp [lookupKV, h]
    · simp [lookupKV, h, ih]

/-! ### `setKey` -/

theorem lookupKV_map_replace (d : Data) (k : Str) (v : DVal)
    (h : (lookupKV d k).isSome = true) :
    lookupKV (d.map (fun kv => if kv.1 = k then (k, v) else kv)) k = some v := by
  induction d with
  | nil => exact absurd h (by simp [lookupKV])
  | cons kv rest ih =>
    by_cases h1 : kv.1 = k
    · simp [lookupKV, h1]
    · rw [lookupKV, if_neg h1] at h
      simpa [lookupKV, h1] using ih h

theorem lookupKV_map_replace_ne (d : Data) (k k' : Str) (v : DVal)
    (h : k' ≠ k) :
    lookupKV (d.map (fun kv => if kv.1 = k then (k, v) else kv)) k' =
      lookupKV d k' := by
  induction d with
  | nil => rfl
  | cons kv rest ih =>
    by_cases h1 : kv.1 = k
    · have h2 : k ≠ k' := fun he => h he.symm
      have h3 : kv.1 ≠ k' := h1 ▸ h2
      simp only [List.map_cons, if_pos h1, lookupKV, if_neg h2, if_neg h3]
      exact ih
    · by_cases h4 : kv.1 = k'
      · simp [lookupKV, h1, h4, h]
      · simp only [List.map_cons, if_neg h1, lookupKV, if_neg h4]
        exact ih

theorem lookupKV_setKey_self (d : Data) (k : Str) (v : DVal) :
    lookupKV (setKey d k v) k = some v := by
  unfold setKey
  by_cases h : (lookupKV d k).isSome = true
  · rw [if_pos h]
    exact lookupKV_map_replace d k v h
  · rw [if_neg h, lookupKV_append]
    have hn : lookupKV d k = none := by
      cases hl : lookupKV d k with
      | none => rfl
      | some w => exact absurd (by simp [hl]) h
    rw [hn]
    simp [lookupKV]

theorem lookupKV_setKey_ne (d : Data) (k k' : Str) (v : DVal) (h : k' ≠ k) :
    lookupKV (setKey d k v) k' = lookupKV d k' := by
  unfold setKey
  by_cases hs : (lookupKV d k).isSome = true
  · rw [if_pos hs]
    exact lookupKV_map_replace_ne d k k' v h
  · rw [if_neg hs, lookupKV_append]
    cases hl : lookupKV d k' with
    | none => simp [lookupKV, Ne.symm h]
    | some w => rfl

theorem keysOf_setKey (d : Data) (k : Str) (v : DVal) :
    keysOf (setKey d k v) =
      if (lookupKV d k).isSome = true then keysOf d else keysOf d ++ [k] := by
  unfold setKey
  by_cases hs : (lookupKV d k).isSome = true
  · rw [if_pos hs, if_pos hs]
    unfold keysOf
    rw [List.map_map]
    apply List.map_congr_left
    intro kv _
    by_cases h1 : kv.1 = k
    · simp [h1]
    · simp [h1]
  · rw [if_neg hs, if_neg hs]
    simp [keysOf]

theorem nodupKeys_setKey (d : Data) (k : Str) (v : DVal) (h : NodupKeys d) :
    NodupKeys (setKey d k v) := by
  unfold NodupKeys
  rw [keysOf_setKey]
  by_cases hs : (lookupKV d k).isSome = true
  · rwa [if_pos hs]
  · rw [if_neg hs]
    have hk : k ∉ keysOf d := by
      cases hl : lookupKV d k with
      | none => exact (lookupKV_eq_none_iff d k).1 hl
      | some w => exact absurd (by simp [hl]) hs
    simpa [List.nodup_append] using ⟨h, hk⟩

theorem mem_setKey (d : Data) (k : Str) (v : DVal) (kv : Str × DVal)
    (h : kv ∈ setKey d k v) : kv ∈ d ∨ kv = (k, v) := by
  unfold setKey at h
  by_cases hs : (lookupKV d k).isSome = true
  · rw [if_pos hs] at h
    obtain ⟨kv', hm, he⟩ := List.mem_map.1 h
    by_cases h1 : kv'.1 = k
    · right
      rw [← he, if_pos h1]
    · left
      rw [← he, if_neg h1]
      exact hm
  · rw [if_neg hs] at h
    rcases List.mem_append.1 h with h | h
    · exact Or.inl h
    · exact Or.inr (by simpa using h)

/-! ### Folding `setKey` over entry lists (`objOf`, `jsAssign`) -/

theorem mem_foldl_setKey (b : Data) :
    ∀ (acc : Data) (kv : Str × DVal),
      kv ∈ b.foldl (fun a kv' => setKey a kv'.1 kv'.2) acc →
      kv ∈ acc ∨ kv ∈ b := by
  induction b with
  | nil => intro acc kv h; exact Or.inl h
  | cons kv0 rest ih =>
    intro acc kv h
    rcases ih (setKey acc kv0.1 kv0.2) kv h with h | h
    · rcases mem_setKey acc kv0.1 kv0.2 kv h with h | h
      · exact Or.inl h
      · exact Or.inr (h ▸ List.mem_cons_self kv0 rest)
    · exact Or.inr (List.mem_cons_of_mem kv0 h)

theorem nodupKeys_foldl_setKey (b : Data) :
    ∀ acc : Data, NodupKeys acc →
      NodupKeys (b.foldl (fun a kv' => setKey a kv'.1 kv'.2) acc) := by
  induction b with
  | nil => intro acc h; exact h
  | cons kv0 rest ih =>
    intro acc h
    exact ih _ (nodupKeys_setKey acc kv0.1 kv0.2 h)

theorem lookupKV_foldl_setKey_not_mem (b : Data) :
    ∀ (acc : Data) (k : Str), k ∉ keysOf b →
      lookupKV (b.foldl (fun a kv' => setKey a kv'.1 kv'.2) acc) k =
        lookupKV acc k := by
  induction b with
  | nil => intro acc k _; rfl
  | cons kv0 rest ih =>
    intro acc k hk
    have h1 : k ≠ kv0.1 := fun he => hk (he ▸ List.mem_cons_self kv0.1 _)
    have h2 : k ∉ keysOf rest := fun hm => hk (List.mem_cons_of_mem kv0.1 hm)
    rw [List.foldl_cons, ih _ k h2, lookupKV_setKey_ne acc kv0.1 k kv0.2 h1]

theorem lookupKV_foldl_setKey_mem (b : Data) :
    ∀ (acc : Data) (k : Str) (v0 : DVal),
      (∀ kv ∈ b, kv.2 = v0) → k ∈ keysOf b →
      lookupKV (b.foldl (fun a kv' => setKey a kv'.1 kv'.2) acc) k = some v0 := by
  induction b with
  | nil => intro acc k v0 _ hk; exact absurd hk (by simp [keysOf])
  | cons kv0 rest ih =>
    intro acc k v0 hv hk
    by_cases hr : k ∈ keysOf rest
    · exact ih _ k v0 (fun kv hm => hv kv (List.mem_cons_of_mem kv0 hm)) hr
    · have h1 : k = kv0.1 := by
        rcases List.mem_cons.1 hk with h | h
        · exact h
        · exact absurd h hr
      rw [List.foldl_cons, lookupKV_foldl_setKey_not_mem rest _ k hr, ← h1]
      have h2 : kv0.2 = v0 := hv kv0 (List.mem_cons_self kv0 rest)
      rw [h2]
      exact lookupKV_setKey_self acc k v0

theorem objOf_nil : objOf [] = [] := rfl

theorem nodupKeys_objOf (d : Data) : NodupKeys (objOf d) :=
  nodupKeys_foldl_setKey d [] (by simp [NodupKeys, keysOf])

theorem nodupKeys_jsAssign (a b : Data) : NodupKeys (jsAssign a b) :=
  nodupKeys_foldl_setKey b (objOf a) (nodupKeys_objOf a)

theorem mem_objOf (d : Data) (kv : Str × DVal) (h : kv ∈ objOf d) : kv ∈ d := by
  rcases mem_foldl_setKey d [] kv h with h | h
  · exact absurd h (by simp)
  · exact h

theorem lookupKV_objOf_eq_none (d : Data) (k : Str)
    (h : lookupKV d k = none) : lookupKV (objOf d) k = none := by
  cases hl : lookupKV (objOf d) k with
  | none => rfl
  | some v =>
    have hm : (k, v) ∈ d := mem_objOf d (k, v) (mem_of_lookupKV _ k v hl)
    have : k ∈ keysOf d := List.mem_map.2 ⟨(k, v), hm, rfl⟩
    exact absurd ((lookupKV_eq_none_iff d k).1 h) (fun hn => hn this)

theorem lookupKV_foldl_setKey_nodup (d : Data) :
    ∀ acc : Data, NodupKeys d → NodupKeys acc →
      (∀ kv ∈ d, kv.1 ∉ keysOf acc) → ∀ k : Str,
      lookupKV (d.foldl (fun a kv' => setKey a kv'.1 kv'.2) acc) k =
        match lookupKV acc k with
        | some v => some v
        | none => lookupKV d k := by
  induction d with
  | nil =>
    intro acc _ _ _ k
    simp only [List.foldl_nil]
    cases hl : lookupKV acc k with
    | none => simp [lookupKV]
    | some v => rfl
  | cons kv0 rest ih =>
    intro acc hd hacc hdisj k
    have hk0rest : kv0.1 ∉ keysOf rest := (List.nodup_cons.1 hd).1
    have hdrest : NodupKeys rest := (List.nodup_cons.1 hd).2
    have hk0acc : kv0.1 ∉ keysOf acc :=
      hdisj kv0 (List.mem_cons_self kv0 rest)
    have hlacc : lookupKV acc kv0.1 = none := by
      cases hl : lookupKV acc kv0.1 with
      | none => rfl
      | some v => exact absurd (mem_keysOf_of_lookupKV acc kv0.1 v hl) hk0acc
    have hkeys : keysOf (setKey acc kv0.1 kv0.2) = keysOf acc ++ [kv0.1] := by
      rw [keysOf_setKey, if_neg (by simp [hlacc])]
    have hdisj' : ∀ kv ∈ rest, kv.1 ∉ keysOf (setKey acc kv0.1 kv0.2) := by
      intro kv hm
      rw [hkeys]
      intro hmem
      rcases List.mem_append.1 hmem with h | h
      · exact hdisj kv (List.mem_cons_of_mem kv0 hm) h
      · have : kv.1 = kv0.1 := by simpa using h
        exact hk0rest (this ▸ List.mem_map.2 ⟨kv, hm, rfl⟩)
    have hIH := ih (setKey acc kv0.1 kv0.2) hdrest
      (nodupKeys_setKey acc kv0.1 kv0.2 hacc) hdisj' k
    rw [List.foldl_cons, hIH]
    by_cases hk : k = kv0.1
    · subst hk
      rw [lookupKV_setKey_self, hlacc]
      simp [lookupKV]
    · rw [lookupKV_setKey_ne acc kv0.1 k kv0.2 hk]
      cases hl : lookupKV acc k with
      | none =>
        show lookupKV rest k = lookupKV (kv0 :: rest) k
        have hcons :
            lookupKV (kv0 :: rest) k =
              if kv0.1 = k then some kv0.2 else lookupKV rest k := rfl
        rw [hcons, if_neg (fun h : kv0.1 = k => hk h.symm)]
      | some v => rfl

theorem lookupKV_objOf_of_nodup (d : Data) (hd : NodupKeys d) (k : Str) :
    lookupKV (objOf d) k = lookupKV d k := by
  have := lookupKV_foldl_setKey_nodup d [] hd (by simp [NodupKeys, keysOf])
    (by simp [keysOf]) k
  simpa [objOf, lookupKV] using this

/-! ### `prune`, `removeKey`, `snapToValues` -/

theorem mem_prune (d : Data) (kv : Str × DVal) :
    kv ∈ prune d ↔ kv ∈ d ∧ kv.2.truthy = true := by
  simp [prune, List.mem_filter]

theorem nodupKeys_prune (d : Data) (h : NodupKeys d) : NodupKeys (prune d) :=
  h.sublist ((List.filter_sublist d).map Prod.fst)

theorem prune_eq_nil_iff (d : Data) :
    prune d = [] ↔ ∀ kv ∈ d, kv.2.truthy = false := by
  rw [prune, List.filter_eq_nil_iff]
  simp only [Bool.not_eq_true]

theorem lookupKV_prune (d : Data) (h : NodupKeys d) (k : Str) :
    lookupKV (prune d) k =
      match lookupKV d k with
      | some v => if v.truthy then some v else none
      | none => none := by
  induction d with
  | nil => rfl
  | cons kv0 rest ih =>
    have hk0 : kv0.1 ∉ keysOf rest := (List.nodup_cons.1 h).1
    have hr : NodupKeys rest := (List.nodup_cons.1 h).2
    by_cases ht : kv0.2.truthy = true
    · have hp : prune (kv0 :: rest) = kv0 :: prune rest := by
        simp [prune, ht]
      rw [hp]
      by_cases hk : kv0.1 = k
      · simp [lookupKV, hk, ht]
      · show lookupKV (kv0 :: prune rest) k = _
        have hstep :
            lookupKV (kv0 :: prune rest) k =
              if kv0.1 = k then some kv0.2 else lookupKV (prune rest) k := rfl
        have hstep2 :
            lookupKV (kv0 :: rest) k =
              if kv0.1 = k then some kv0.2 else lookupKV rest k := rfl
        rw [hstep, if_neg hk, hstep2, if_neg hk]
        exact ih hr
    · have hp : prune (kv0 :: rest) = prune rest := by
        simp [prune, ht]
      rw [hp, ih hr]
      have hstep2 :
          lookupKV (kv0 :: rest) k =
            if kv0.1 = k then some kv0.2 else lookupKV rest k := rfl
      by_cases hk : kv0.1 = k
      · have hn : lookupKV rest k = none :=
          (lookupKV_eq_none_iff rest k).2 (hk ▸ hk0)
        rw [hn, hstep2, if_pos hk]
        simp [ht]
      · rw [hstep2, if_neg hk]

theorem mem_keysOf_removeKey (d : Data) (k m : Str) :
    m ∈ keysOf (removeKey d k) ↔ m ≠ k ∧ m ∈ keysOf d := by
  constructor
  · intro h
    obtain ⟨kv, hm, hk⟩ := List.mem_map.1 h
    have := List.mem_filter.1 hm
    refine ⟨by simpa [hk] using this.2, List.mem_map.2 ⟨kv, this.1, hk⟩⟩
  · rintro ⟨hne, hm⟩
    obtain ⟨kv, hkv, hk⟩ := List.mem_map.1 hm
    exact List.mem_map.2
      ⟨kv, List.mem_filter.2 ⟨hkv, by simpa [hk] using hne⟩, hk⟩

theorem mem_snapToValues (snap : Option Data) (m : Str) :
    m ∈ snapToValues snap ↔
      m ≠ BUCKET_FIELD ∧ m ∈ keysOf (snap.getD []) := by
  rw [snapToValues, mem_keysOf_removeKey]

/-! ### `insertFirst`, `collectIds`, `jsDedup` -/

theorem mem_insertFirst {α : Type} [DecidableEq α] (acc : List α) (x y : α) :
    y ∈ insertFirst acc x ↔ y ∈ acc ∨ y = x := by
  unfold insertFirst
  by_cases h : x ∈ acc
  · rw [if_pos h]
    constructor
    · exact Or.inl
    · rintro (hy | rfl)
      · exact hy
      · exact h
  · rw [if_neg h]
    simp

theorem nodup_insertFirst {α : Type} [DecidableEq α] (acc : List α) (x : α)
    (h : acc.Nodup) : (insertFirst acc x).Nodup := by
  unfold insertFirst
  by_cases hx : x ∈ acc
  · rwa [if_pos hx]
  · rw [if_neg hx]
    simp [List.nodup_append, h, hx]

theorem mem_foldl_insertFirst {α : Type} [DecidableEq α] (l : List α) :
    ∀ (acc : List α) (y : α),
      y ∈ l.foldl insertFirst acc ↔ y ∈ acc ∨ y ∈ l := by
  induction l with
  | nil => intro acc y; simp
  | cons a rest ih =>
    intro acc y
    rw [List.foldl_cons, ih, mem_insertFirst]
    simp [or_assoc]

theorem nodup_foldl_insertFirst {α : Type} [DecidableEq α] (l : List α) :
    ∀ acc : List α, acc.Nodup → (l.foldl insertFirst acc).Nodup := by
  induction l with
  | nil => intro acc h; exact h
  | cons a rest ih =>
    intro acc h
    exact ih _ (nodup_insertFirst acc a h)

theorem collectIds_eq (ops : List Operation) :
    collectIds ops = (ops.map Operation.id).foldl insertFirst [] := by
  rw [collectIds, List.foldl_map]

theorem mem_collectIds (ops : List Operation) (i : Str) :
    i ∈ collectIds ops ↔ ∃ op ∈ ops, op.id = i := by
  rw [collectIds_eq, mem_foldl_insertFirst]
  simp

theorem nodup_collectIds (ops : List Operation) : (collectIds ops).Nodup := by
  rw [collectIds_eq]
  exact nodup_foldl_insertFirst _ [] List.nodup_nil

theorem mem_jsDedup (l : List Str) (x : Str) : x ∈ jsDedup l ↔ x ∈ l := by
  rw [jsDedup, mem_foldl_insertFirst]
  simp

theorem nodup_jsDedup (l : List Str) : (jsDedup l).Nodup :=
  nodup_foldl_insertFirst l [] List.nodup_nil

/-! ### The commit fold -/

theorem applyOp_update_some (w : Str → DocState) (op : Operation)
    (ht : op.type = .update) (hdel : (w op.id).deleted = false) :
    applyOp w op = some (fun i =>
      if i = op.id then
        { deleted := (w op.id).deleted,
          snapData := jsAssign (w op.id).snapData op.data }
      else w i) := by
  unfold applyOp
  rw [ht]
  simp [hdel]

theorem applyOp_update_none (w : Str → DocState) (op : Operation)
    (ht : op.type = .update) (hdel : (w op.id).deleted = true) :
    applyOp w op = none := by
  unfold applyOp
  rw [ht]
  simp [hdel]

theorem applyOp_delete (w : Str → DocState) (op : Operation)
    (ht : op.type = .delete) :
    applyOp w op = some (fun i =>
      if i = op.id then { deleted := true, snapData := (w op.id).snapData }
      else w i) := by
  unfold applyOp
  rw [ht]

theorem applyOp_deleted_mono (w w' : Str → DocState) (op : Operation)
    (h : applyOp w op = some w') (i : Str) (hd : (w i).deleted = true) :
    (w' i).deleted = true := by
  cases hop : op.type with
  | update =>
    by_cases hdel : (w op.id).deleted = true
    · rw [applyOp_update_none w op hop hdel] at h
      exact Option.noConfusion h
    · rw [applyOp_update_some w op hop (by simpa using hdel)] at h
      have hw := Option.some.inj h
      rw [← hw]
      by_cases hi : i = op.id
      · simp only [if_pos hi]
        exact absurd (hi ▸ hd) hdel
      · simp only [if_neg hi]
        exact hd
  | delete =>
    rw [applyOp_delete w op hop] at h
    have hw := Option.some.inj h
    rw [← hw]
    by_cases hi : i = op.id
    · simp [hi]
    · simp only [if_neg hi]
      exact hd

theorem foldOps_deleted_mono (ops : List Operation) :
    ∀ w w' : Str → DocState, foldOps w ops = some w' →
      ∀ i : Str, (w i).deleted = true → (w' i).deleted = true := by
  induction ops with
  | nil =>
    intro w w' h i hd
    have hw := Option.some.inj h
    rw [← hw]
    exact hd
  | cons op0 rest ih =>
    intro w w' h i hd
    rw [foldOps] at h
    cases happ : applyOp w op0 with
    | none => rw [happ] at h; exact Option.noConfusion h
    | some w1 =>
      rw [happ] at h
      exact ih w1 w' h i (applyOp_deleted_mono w w1 op0 happ i hd)

theorem foldOps_append (l₁ l₂ : List Operation) :
    ∀ w : Str → DocState, foldOps w (l₁ ++ l₂) =
      match foldOps w l₁ with
      | none => none
      | some w' => foldOps w' l₂ := by
  induction l₁ with
  | nil => intro w; rfl
  | cons op0 rest ih =>
    intro w
    rw [List.cons_append, foldOps, foldOps]
    cases happ : applyOp w op0 with
    | none => rfl
    | some w1 => exact ih w1

theorem foldOps_delete_deleted (ops : List Operation) :
    ∀ w w' : Str → DocState, foldOps w ops = some w' →
      ∀ op ∈ ops, op.type = .delete → (w' op.id).deleted = true := by
  induction ops with
  | nil => intro w w' _ op hm; exact absurd hm (by simp)
  | cons op0 rest ih =>
    intro w w' h op hm hty
    rw [foldOps] at h
    cases happ : applyOp w op0 with
    | none => rw [happ] at h; exact Option.noConfusion h
    | some w1 =>
      rw [happ] at h
      rcases List.mem_cons.1 hm with rfl | hm
      · have h1 : (w1 op.id).deleted = true := by
          rw [applyOp_delete w op hty] at happ
          have hw := Option.some.inj happ
          rw [← hw]
          simp
        exact foldOps_deleted_mono rest w1 w' h op.id h1
      · exact ih w1 w' h op hm hty

theorem foldOps_update_after_delete (l₁ l₂ l₃ : List Operation)
    (opd opu : Operation) (hd : opd.type = .delete) (hu : opu.type = .update)
    (hid : opu.id = opd.id) (w : Str → DocState) :
    foldOps w (l₁ ++ opd :: (l₂ ++ opu :: l₃)) = none := by
  rw [foldOps_append]
  cases h1 : foldOps w l₁ with
  | none => rfl
  | some w1 =>
    show foldOps w1 (opd :: (l₂ ++ opu :: l₃)) = none
    rw [foldOps, applyOp_delete w1 opd hd]
    show foldOps _ (l₂ ++ opu :: l₃) = none
    rw [foldOps_append]
    cases h2 : foldOps (fun i => if i = opd.id then
        { deleted := true, snapData := (w1 opd.id).snapData } else w1 i) l₂ with
    | none => rfl
    | some w3 =>
      have hdel : (w3 opu.id).deleted = true := by
        apply foldOps_deleted_mono l₂ _ w3 h2 opu.id
        simp [hid]
      show foldOps w3 (opu :: l₃) = none
      rw [foldOps, applyOp_update_none w3 opu hu hdel]

/-- The operation data merged onto one working-set entry:
the `data` payloads of the batch's operations addressing id `i`,
in batch order. -/
def datasFor (i : Str) (ops : List Operation) : List Data :=
  (ops.filter (fun op => op.id = i)).map (fun op => op.data)

theorem datasFor_nil (i : Str) : datasFor i [] = [] := rfl

theorem datasFor_ne_nil (i : Str) (ops : List Operation)
    (h : ∃ op ∈ ops, op.id = i) : datasFor i ops ≠ [] := by
  obtain ⟨op, hop, hid⟩ := h
  have hmem : op ∈ ops.filter (fun op => op.id = i) :=
    List.mem_filter.2 ⟨hop, by simp [hid]⟩
  intro he
  unfold datasFor at he
  rw [List.map_eq_nil_iff] at he
  rw [he] at hmem
  exact absurd hmem (List.not_mem_nil op)

theorem foldOps_all_update (ops : List Operation)
    (hops : ∀ op ∈ ops, op.type = .update) :
    ∀ w : Str → DocState, (∀ i, (w i).deleted = false) →
      ∃ w', foldOps w ops = some w' ∧ ∀ i : Str,
        (w' i).deleted = false ∧
        (w' i).snapData = (datasFor i ops).foldl jsAssign (w i).snapData := by
  induction ops with
  | nil =>
    intro w hw
    exact ⟨w, rfl, fun i => ⟨hw i, by simp [datasFor]⟩⟩
  | cons op0 rest ih =>
    intro w hw
    have hty : op0.type = .update := hops op0 (List.mem_cons_self op0 rest)
    have happ := applyOp_update_some w op0 hty (hw op0.id)
    obtain ⟨w', hfold, hch⟩ := ih (fun op hm => hops op (List.mem_cons_of_mem op0 hm))
      (fun i => if i = op0.id then
        { deleted := (w op0.id).deleted,
          snapData := jsAssign (w op0.id).snapData op0.data }
      else w i)
      (by
        intro i
        by_cases hi : i = op0.id
        · simp only [if_pos hi]
          exact hw op0.id
        · simp only [if_neg hi]
          exact hw i)
    refine ⟨w', ?_, ?_⟩
    · rw [foldOps, happ]
      exact hfold
    · intro i
      refine ⟨(hch i).1, ?_⟩
      rw [(hch i).2]
      by_cases hi : op0.id = i
      · subst hi
        have hfi : datasFor op0.id (op0 :: rest) =
            op0.data :: datasFor op0.id rest := by
          simp [datasFor, List.filter_cons]
        rw [hfi, List.foldl_cons]
        simp
      · have hfi : datasFor i (op0 :: rest) = datasFor i rest := by
          simp [datasFor, List.filter_cons, hi]
        rw [hfi]
        simp only [if_neg (fun he : i = op0.id => hi he.symm)]

/-! ### `dataOfValues` -/

theorem dataOfValues_eq (flag : Bool) (values : List Str) :
    dataOfValues flag values =
      jsAssign [] (values.map (fun v => (v, DVal.b flag))) := by
  rw [jsAssign, List.foldl_map]
  rfl

theorem mem_dataOfValues (flag : Bool) (values : List Str) (kv : Str × DVal)
    (h : kv ∈ dataOfValues flag values) :
    kv.1 ∈ values ∧ kv.2 = DVal.b flag := by
  rw [dataOfValues_eq] at h
  rcases mem_foldl_setKey _ _ kv h with h | h
  · exact absurd h (by simp [objOf])
  · obtain ⟨v, hv, he⟩ := List.mem_map.1 h
    rw [← he]
    exact ⟨hv, rfl⟩

theorem nodupKeys_dataOfValues (flag : Bool) (values : List Str) :
    NodupKeys (dataOfValues flag values) := by
  rw [dataOfValues_eq]
  exact nodupKeys_jsAssign _ _

theorem keysOf_map_pair (values : List Str) (f : Str → DVal) :
    keysOf (values.map (fun v => (v, f v))) = values := by
  rw [keysOf, List.map_map]
  have h : (Prod.fst ∘ fun v => (v, f v)) = fun v : Str => v := rfl
  rw [h]
  simp

theorem lookupKV_dataOfValues_mem (flag : Bool) (values : List Str) (k : Str)
    (hk : k ∈ values) :
    lookupKV (dataOfValues flag values) k = some (DVal.b flag) := by
  rw [dataOfValues_eq, jsAssign]
  apply lookupKV_foldl_setKey_mem
  · intro kv hkv
    obtain ⟨v, _, he⟩ := List.mem_map.1 hkv
    rw [← he]
  · rwa [keysOf_map_pair]

theorem lookupKV_dataOfValues_not_mem (flag : Bool) (values : List Str)
    (k : Str) (hk : k ∉ values) :
    lookupKV (dataOfValues flag values) k = none := by
  rw [dataOfValues_eq, jsAssign,
    lookupKV_foldl_setKey_not_mem _ _ k (by rwa [keysOf_map_pair])]
  rfl

theorem mem_keysOf_dataOfValues (flag : Bool) (values : List Str) (k : Str) :
    k ∈ keysOf (dataOfValues flag values) ↔ k ∈ values := by
  constructor
  · intro h
    obtain ⟨v, hv⟩ := (mem_keysOf_iff _ k).1 h
    exact (mem_dataOfValues flag values (k, v) hv).1
  · intro h
    rw [← lookupKV_isSome_iff, lookupKV_dataOfValues_mem flag values k h]
    rfl

/-! ### Applying the staged writes -/

theorem applyWrites_not_mem (ws : List (Str × Option Data)) :
    ∀ (s : Store) (x : Str), x ∉ ws.map Prod.fst → applyWrites s ws x = s x := by
  induction ws with
  | nil => intro s x _; rfl
  | cons p rest ih =>
    intro s x hx
    have h1 : x ≠ p.1 := fun he => hx (by
      rw [List.map_cons, he]
      exact List.mem_cons_self p.1 _)
    have h2 : x ∉ rest.map Prod.fst := fun hm => hx (by
      rw [List.map_cons]
      exact List.mem_cons_of_mem p.1 hm)
    show applyWrites (updFn s p.1 p.2) rest x = s x
    rw [ih _ x h2, updFn, if_neg h1]

theorem applyWrites_map_eq (ids : List Str) (f : Str → Option Data) :
    ids.Nodup → ∀ (s : Store) (x : Str),
      applyWrites s (ids.map (fun i => (i, f i))) x =
        if x ∈ ids then f x else s x := by
  induction ids with
  | nil => intro _ s x; simp [applyWrites]
  | cons i0 rest ih =>
    intro hnd s x
    have h0 : i0 ∉ rest := (List.nodup_cons.1 hnd).1
    have hr : rest.Nodup := (List.nodup_cons.1 hnd).2
    show applyWrites (updFn s i0 (f i0)) (rest.map fun i => (i, f i)) x = _
    rw [ih hr]
    by_cases hx : x ∈ rest
    · rw [if_pos hx, if_pos (List.mem_cons_of_mem i0 hx)]
    · rw [if_neg hx]
      by_cases he : x = i0
      · subst he
        rw [updFn, if_pos rfl, if_pos (List.mem_cons_self x rest)]
      · rw [updFn, if_neg he, if_neg (by simp [he, hx])]

theorem endWrites_of_foldOps (s : Store) (ops : List Operation)
    (w : Str → DocState) (h : foldOps (initDocs s) ops = some w) :
    endWrites s ops =
      some ((collectIds ops).map (fun i => (i, finalizeDoc i (w i)))) := by
  unfold endWrites
  rw [h]

theorem endWrites_none_of_foldOps (s : Store) (ops : List Operation)
    (h : foldOps (initDocs s) ops = none) : endWrites s ops = none := by
  unfold endWrites
  rw [h]

theorem endState_char (s : Store) (ops : List Operation)
    (w : Str → DocState) (h : foldOps (initDocs s) ops = some w) (x : Str) :
    endState s ops x =
      if x ∈ collectIds ops then finalizeDoc x (w x) else s x := by
  unfold endState
  rw [endWrites_of_foldOps s ops w h]
  exact applyWrites_map_eq (collectIds ops) _ (nodup_collectIds ops) s x

theorem endState_of_none (s : Store) (ops : List Operation)
    (h : endWrites s ops = none) : endState s ops = s := by
  unfold endState
  rw [h]

theorem finalizeDoc_deleted (id : Str) (st : DocState)
    (h : st.deleted = true) : finalizeDoc id st = none := by
  unfold finalizeDoc
  rw [h]
  simp

theorem finalizeDoc_mk (id : Str) (d : Data) :
    finalizeDoc id { deleted := false, snapData := d } =
      if (prune d).isEmpty then none
      else some (setKey (prune d) BUCKET_FIELD
        (.s (getBucketFromId id))) := by
  unfold finalizeDoc
  simp

theorem finalizeDoc_live (id : Str) (st : DocState) (h : st.deleted = false) :
    finalizeDoc id st =
      if (prune st.snapData).isEmpty then none
      else some (setKey (prune st.snapData) BUCKET_FIELD
        (.s (getBucketFromId id))) := by
  unfold finalizeDoc
  rw [h]
  simp

theorem endWrites_single_update (s : Store) (id : Str) (D : Data) :
    foldOps (initDocs s) [{ id := id, type := .update, data := D }] =
      some (fun i =>
        if i = id then
          { deleted := false, snapData := jsAssign ((s id).getD []) D }
        else initDocs s i) := by
  have happ := applyOp_update_some (initDocs s)
    { id := id, type := .update, data := D } rfl rfl
  rw [foldOps, happ]
  rfl

theorem endWrites_single_update_isSome (s : Store) (id : Str) (D : Data) :
    (endWrites s [{ id := id, type := .update, data := D }]).isSome = true := by
  rw [endWrites_of_foldOps s _ _ (endWrites_single_update s id D)]
  rfl

theorem endState_single_update (s : Store) (id : Str) (D : Data) :
    endState s [{ id := id, type := .update, data := D }] id =
      finalizeDoc id
        { deleted := false, snapData := jsAssign ((s id).getD []) D } := by
  have hmem : id ∈ collectIds [{ id := id, type := .update, data := D }] :=
    (mem_collectIds _ _).2 ⟨_, List.mem_cons_self _ _, rfl⟩
  rw [endState_char s _ _ (endWrites_single_update s id D) id,
    if_pos hmem, if_pos rfl]

theorem lookupKV_jsAssign_nil_dataOfValues_mem (flag : Bool) (M : List Str)
    (k : Str) (hk : k ∈ M) :
    lookupKV (jsAssign [] (dataOfValues flag M)) k = some (DVal.b flag) := by
  rw [jsAssign]
  apply lookupKV_foldl_setKey_mem
  · exact fun kv hkv => (mem_dataOfValues flag M kv hkv).2
  · exact (mem_keysOf_dataOfValues flag M k).2 hk

theorem lookupKV_jsAssign_nil_dataOfValues_not_mem (flag : Bool)
    (M : List Str) (k : Str) (hk : k ∉ M) :
    lookupKV (jsAssign [] (dataOfValues flag M)) k = none := by
  rw [jsAssign, lookupKV_foldl_setKey_not_mem _ _ k
    (fun h => hk ((mem_keysOf_dataOfValues flag M k).1 h))]
  rfl

theorem lookupKV_jsAssign_mem_const (a b : Data) (k : Str) (v0 : DVal)
    (hv : ∀ kv ∈ b, kv.2 = v0) (hk : k ∈ keysOf b) :
    lookupKV (jsAssign a b) k = some v0 := by
  rw [jsAssign]
  exact lookupKV_foldl_setKey_mem b (objOf a) k v0 hv hk

theorem lookupKV_jsAssign_not_mem (a b : Data) (k : Str)
    (hk : k ∉ keysOf b) (hnd : NodupKeys a) :
    lookupKV (jsAssign a b) k = lookupKV a k := by
  rw [jsAssign, lookupKV_foldl_setKey_not_mem b (objOf a) k hk,
    lookupKV_objOf_of_nodup a hnd]

theorem endState_single_delete (s : Store) (id : Str) :
    endState s [{ id := id, type := .delete, data := [] }] id = none := by
  have happ := applyOp_delete (initDocs s)
    { id := id, type := .delete, data := [] } rfl
  have hfold : foldOps (initDocs s)
      [{ id := id, type := .delete, data := [] }] =
      some (fun i =>
        if i = id then { deleted := true, snapData := (s id).getD [] }
        else initDocs s i) := by
    rw [foldOps, happ]
    rfl
  have hmem : id ∈ collectIds [{ id := id, type := .delete, data := [] }] :=
    (mem_collectIds _ _).2 ⟨_, List.mem_cons_self _ _, rfl⟩
  rw [endState_char s _ _ hfold id, if_pos hmem, if_pos rfl,
    finalizeDoc_deleted _ _ rfl]

theorem eq_singleton_of_nodupKeys (l : Data) (k : Str) (v : DVal)
    (hnd : NodupKeys l) (hmem : (k, v) ∈ l) (hall : ∀ kv ∈ l, kv.1 = k) :
    l = [(k, v)] := by
  cases l with
  | nil => exact absurd hmem (by simp)
  | cons kv0 rest =>
    have hk0 : kv0.1 = k := hall kv0 (List.mem_cons_self kv0 rest)
    have hk0rest : kv0.1 ∉ keysOf rest := (List.nodup_cons.1 hnd).1
    have hrest : rest = [] := by
      cases rest with
      | nil => rfl
      | cons kv1 rest' =>
        have hk1 : kv1.1 = k :=
          hall kv1 (List.mem_cons_of_mem kv0 (List.mem_cons_self kv1 rest'))
        exact absurd (by
          rw [hk0, ← hk1]
          exact List.mem_map.2 ⟨kv1, List.mem_cons_self kv1 rest', rfl⟩) hk0rest
    subst hrest
    have : kv0 = (k, v) := by
      rcases List.mem_cons.1 hmem with h | h
      · exact h.symm
      · exact absurd h (by simp)
    rw [this]

theorem setKey_singleton_self (k : Str) (v v' : DVal) :
    setKey [(k, v)] k v' = [(k, v')] := by
  unfold setKey
  rw [if_pos (by simp [lookupKV])]
  simp

theorem removeKey_singleton_self (k : Str) (v : DVal) :
    removeKey [(k, v)] k = [] := by
  simp [removeKey]

/-! ### Folding `jsAssign` over the per-id operation payloads -/

theorem lookupKV_jsAssign_not_mem_raw (a b : Data) (k : Str)
    (hk : k ∉ keysOf b) :
    lookupKV (jsAssign a b) k = lookupKV (objOf a) k := by
  rw [jsAssign, lookupKV_foldl_setKey_not_mem b (objOf a) k hk]

theorem nodupKeys_foldl_jsAssign_of (ds : List Data) :
    ∀ base : Data, NodupKeys base → NodupKeys (ds.foldl jsAssign base) := by
  induction ds with
  | nil => intro base h; exact h
  | cons d0 rest ih =>
    intro base _
    rw [List.foldl_cons]
    exact ih (jsAssign base d0) (nodupKeys_jsAssign base d0)

theorem nodupKeys_merged (d0 : Data) (rest : List Data) (base : Data) :
    NodupKeys ((d0 :: rest).foldl jsAssign base) := by
  rw [List.foldl_cons]
  exact nodupKeys_foldl_jsAssign_of rest (jsAssign base d0)
    (nodupKeys_jsAssign base d0)

theorem lookupKV_foldl_jsAssign_skip (rest : List Data) :
    ∀ (base : Data) (k : Str), NodupKeys base →
      (∀ d ∈ rest, k ∉ keysOf d) →
      lookupKV (rest.foldl jsAssign base) k = lookupKV base k := by
  induction rest with
  | nil => intro base k _ _; rfl
  | cons d1 rest' ih =>
    intro base k hnd hnk
    rw [List.foldl_cons,
      ih (jsAssign base d1) k (nodupKeys_jsAssign base d1)
        (fun d hd => hnk d (List.mem_cons_of_mem d1 hd)),
      lookupKV_jsAssign_not_mem_raw base d1 k
        (hnk d1 (List.mem_cons_self d1 rest')),
      lookupKV_objOf_of_nodup base hnd]

theorem lookupKV_foldl_jsAssign_hit (rest : List Data) :
    ∀ (base : Data) (k : Str), NodupKeys base →
      (∀ d ∈ rest, ∀ kv ∈ d, kv.2 = DVal.b true) →
      (∃ d ∈ rest, k ∈ keysOf d) →
      lookupKV (rest.foldl jsAssign base) k = some (DVal.b true) := by
  induction rest with
  | nil =>
    intro base k _ _ hex
    obtain ⟨d, hd, _⟩ := hex
    exact absurd hd (List.not_mem_nil d)
  | cons d1 rest' ih =>
    intro base k hnd hall hex
    by_cases hx : ∃ d ∈ rest', k ∈ keysOf d
    · rw [List.foldl_cons]
      exact ih (jsAssign base d1) k (nodupKeys_jsAssign base d1)
        (fun d hd => hall d (List.mem_cons_of_mem d1 hd)) hx
    · have hk1 : k ∈ keysOf d1 := by
        rcases hex with ⟨d, hd, hk⟩
        rcases List.mem_cons.1 hd with rfl | hd'
        · exact hk
        · exact absurd ⟨d, hd', hk⟩ hx
      rw [List.foldl_cons,
        lookupKV_foldl_jsAssign_skip rest' (jsAssign base d1) k
          (nodupKeys_jsAssign base d1) (fun d hd hkk => hx ⟨d, hd, hkk⟩)]
      exact lookupKV_jsAssign_mem_const base d1 k _
        (hall d1 (List.mem_cons_self d1 rest')) hk1

theorem lookupKV_merged_mem (d0 : Data) (rest : List Data) (base : Data)
    (k : Str) (hall : ∀ d ∈ d0 :: rest, ∀ kv ∈ d, kv.2 = DVal.b true)
    (hex : ∃ d ∈ d0 :: rest, k ∈ keysOf d) :
    lookupKV ((d0 :: rest).foldl jsAssign base) k = some (DVal.b true) := by
  rw [List.foldl_cons]
  by_cases hx : ∃ d ∈ rest, k ∈ keysOf d
  · exact lookupKV_foldl_jsAssign_hit rest (jsAssign base d0) k
      (nodupKeys_jsAssign base d0)
      (fun d hd => hall d (List.mem_cons_of_mem d0 hd)) hx
  · have hk0 : k ∈ keysOf d0 := by
      rcases hex with ⟨d, hd, hk⟩
      rcases List.mem_cons.1 hd with rfl | hd'
      · exact hk
      · exact absurd ⟨d, hd', hk⟩ hx
    rw [lookupKV_foldl_jsAssign_skip rest (jsAssign base d0) k
      (nodupKeys_jsAssign base d0) (fun d hd hkk => hx ⟨d, hd, hkk⟩)]
    exact lookupKV_jsAssign_mem_const base d0 k _
      (hall d0 (List.mem_cons_self d0 rest)) hk0

theorem lookupKV_merged_not_mem (d0 : Data) (rest : List Data) (base : Data)
    (k : Str) (hnk : ∀ d ∈ d0 :: rest, k ∉ keysOf d) :
    lookupKV ((d0 :: rest).foldl jsAssign base) k =
      lookupKV (objOf base) k := by
  rw [List.foldl_cons,
    lookupKV_foldl_jsAssign_skip rest (jsAssign base d0) k
      (nodupKeys_jsAssign base d0)
      (fun d hd => hnk d (List.mem_cons_of_mem d0 hd)),
    lookupKV_jsAssign_not_mem_raw base d0 k
      (hnk d0 (List.mem_cons_self d0 rest))]

theorem lookupKV_prune_truthy (X : Data) (k : Str) (v : DVal)
    (h : lookupKV (prune X) k = some v) : v.truthy = true :=
  ((mem_prune X (k, v)).1 (mem_of_lookupKV _ _ _ h)).2

theorem eq_nil_of_lookupKV_none (l : Data)
    (h : ∀ k, lookupKV l k = none) : l = [] := by
  cases l with
  | nil => rfl
  | cons kv rest =>
    have hh := h kv.1
    rw [lookupKV, if_pos rfl] at hh
    exact Option.noConfusion hh

/-- Extensional equivalence of two optional documents: same existence,
and the same attribute mapping when both exist. -/
def docEquiv (a b : Option Data) : Prop :=
  a.isSome = b.isSome ∧
  ∀ k, lookupKV (a.getD []) k = lookupKV (b.getD []) k

theorem docEquiv_refl (a : Option Data) : docEquiv a a := ⟨rfl, fun _ => rfl⟩

theorem get_mem_congr (s₂ s₁ : Store)
    (h : ∀ i, docEquiv (s₂ i) (s₁ i)) (bucket key m : Str) :
    m ∈ get s₂ bucket key ↔ m ∈ get s₁ bucket key := by
  obtain ⟨hs, hl⟩ := h (getId bucket key)
  unfold get
  cases h2 : s₂ (getId bucket key) with
  | none =>
    cases h1 : s₁ (getId bucket key) with
    | none => exact Iff.rfl
    | some d1 =>
      rw [h2, h1] at hs
      exact absurd hs (by simp)
  | some d2 =>
    cases h1 : s₁ (getId bucket key) with
    | none =>
      rw [h2, h1] at hs
      exact absurd hs (by simp)
    | some d1 =>
      rw [h2, h1] at hl
      simp only [Option.getD_some] at hl
      show m ∈ snapToValues (some d2) ↔ m ∈ snapToValues (some d1)
      rw [mem_snapToValues, mem_snapToValues]
      simp only [Option.getD_some]
      rw [← lookupKV_isSome_iff d2 m, ← lookupKV_isSome_iff d1 m, hl m]

/-- Re-committing all-true operation payloads onto a document `B` whose
reserved bucket attribute already holds the id's decoded bucket, whose
other attribute values are all truthy, and whose attributes already cover
the payload keys with flag `true`, reproduces a document extensionally
equal to `B`. -/
theorem idem_second (i : Str) (B d0 : Data) (rest : List Data)
    (hall : ∀ d ∈ d0 :: rest, ∀ kv ∈ d, kv.2 = DVal.b true)
    (hBnd : NodupKeys B)
    (hBbf : lookupKV B BUCKET_FIELD = some (DVal.s (getBucketFromId i)))
    (hBtr : ∀ k v, k ≠ BUCKET_FIELD → lookupKV B k = some v →
      v.truthy = true)
    (hBK : ∀ k, k ≠ BUCKET_FIELD → (∃ d ∈ d0 :: rest, k ∈ keysOf d) →
      lookupKV B k = some (DVal.b true))
    (hne : (∃ k, k ≠ BUCKET_FIELD ∧ (lookupKV B k).isSome = true) ∨
      (∃ d ∈ d0 :: rest, BUCKET_FIELD ∈ keysOf d) ∨
      (DVal.s (getBucketFromId i)).truthy = true) :
    docEquiv
      (finalizeDoc i
        { deleted := false, snapData := (d0 :: rest).foldl jsAssign B })
      (some B) := by
  have hA2nd : NodupKeys ((d0 :: rest).foldl jsAssign B) :=
    nodupKeys_merged d0 rest B
  have hA2mem : ∀ k, (∃ d ∈ d0 :: rest, k ∈ keysOf d) →
      lookupKV ((d0 :: rest).foldl jsAssign B) k = some (DVal.b true) :=
    fun k hx => lookupKV_merged_mem d0 rest B k hall hx
  have hA2not : ∀ k, (∀ d ∈ d0 :: rest, k ∉ keysOf d) →
      lookupKV ((d0 :: rest).foldl jsAssign B) k = lookupKV B k := by
    intro k hx
    rw [lookupKV_merged_not_mem d0 rest B k hx,
      lookupKV_objOf_of_nodup B hBnd]
  have hP2mem : ∀ k, (∃ d ∈ d0 :: rest, k ∈ keysOf d) →
      lookupKV (prune ((d0 :: rest).foldl jsAssign B)) k =
        some (DVal.b true) := by
    intro k hx
    rw [lookupKV_prune _ hA2nd, hA2mem k hx]
    rfl
  have hP2not : ∀ k, k ≠ BUCKET_FIELD → (∀ d ∈ d0 :: rest, k ∉ keysOf d) →
      lookupKV (prune ((d0 :: rest).foldl jsAssign B)) k = lookupKV B k := by
    intro k hk hx
    rw [lookupKV_prune _ hA2nd, hA2not k hx]
    cases hB : lookupKV B k with
    | none => rfl
    | some v =>
      have htr := hBtr k v hk hB
      show (if v.truthy = true then some v else none) = some v
      rw [if_pos htr]
  have hP2bf : (∀ d ∈ d0 :: rest, BUCKET_FIELD ∉ keysOf d) →
      lookupKV (prune ((d0 :: rest).foldl jsAssign B)) BUCKET_FIELD =
        (if (DVal.s (getBucketFromId i)).truthy = true
          then some (DVal.s (getBucketFromId i)) else none) := by
    intro hx
    rw [lookupKV_prune _ hA2nd, hA2not _ hx, hBbf]
  have hP2ne : prune ((d0 :: rest).foldl jsAssign B) ≠ [] := by
    have hex : ∃ k,
        (lookupKV (prune ((d0 :: rest).foldl jsAssign B)) k).isSome = true := by
      rcases hne with ⟨k, hkbf, hks⟩ | ⟨d, hd, hbf⟩ | htr
      · by_cases hx : ∃ d ∈ d0 :: rest, k ∈ keysOf d
        · exact ⟨k, by rw [hP2mem k hx]; rfl⟩
        · refine ⟨k, ?_⟩
          rw [hP2not k hkbf (fun d hd hkk => hx ⟨d, hd, hkk⟩)]
          exact hks
      · exact ⟨BUCKET_FIELD, by rw [hP2mem _ ⟨d, hd, hbf⟩]; rfl⟩
      · by_cases hx : ∃ d ∈ d0 :: rest, BUCKET_FIELD ∈ keysOf d
        · exact ⟨BUCKET_FIELD, by rw [hP2mem _ hx]; rfl⟩
        · refine ⟨BUCKET_FIELD, ?_⟩
          rw [hP2bf (fun d hd hkk => hx ⟨d, hd, hkk⟩), if_pos htr]
          rfl
    obtain ⟨k, hk⟩ := hex
    intro h
    rw [h] at hk
    simp [lookupKV] at hk
  have hie2 : (prune ((d0 :: rest).foldl jsAssign B)).isEmpty = false := by
    cases hb : (prune ((d0 :: rest).foldl jsAssign B)).isEmpty
    · rfl
    · exact absurd (List.isEmpty_iff.1 hb) hP2ne
  have hfin2 : finalizeDoc i
      { deleted := false, snapData := (d0 :: rest).foldl jsAssign B } =
      some (setKey (prune ((d0 :: rest).foldl jsAssign B)) BUCKET_FIELD
        (DVal.s (getBucketFromId i))) := by
    rw [finalizeDoc_mk, if_neg (by rw [hie2]; exact Bool.false_ne_true)]
  rw [hfin2]
  refine ⟨rfl, fun k => ?_⟩
  rw [Option.getD_some, Option.getD_some]
  by_cases hk : k = BUCKET_FIELD
  · subst hk
    rw [lookupKV_setKey_self, hBbf]
  · rw [lookupKV_setKey_ne _ _ _ _ hk]
    by_cases hx : ∃ d ∈ d0 :: rest, k ∈ keysOf d
    · rw [hP2mem k hx, hBK k hk hx]
    · rw [hP2not k hk (fun d hd hkk => hx ⟨d, hd, hkk⟩)]

/-- Per-id idempotence of the commit pipeline on all-true payloads:
finalizing the merge onto the first result document is extensionally the
same as the first result document. -/
theorem idem_core (i : Str) (base d0 : Data) (rest : List Data)
    (hall : ∀ d ∈ d0 :: rest, ∀ kv ∈ d, kv.2 = DVal.b true)
    (hwfbase : ∀ kv ∈ base, kv.1 = BUCKET_FIELD →
      kv.2 = DVal.s (getBucketFromId i)) :
    docEquiv
      (finalizeDoc i
        { deleted := false,
          snapData := (d0 :: rest).foldl jsAssign
            ((finalizeDoc i
              { deleted := false,
                snapData := (d0 :: rest).foldl jsAssign base }).getD []) })
      (finalizeDoc i
        { deleted := false,
          snapData := (d0 :: rest).foldl jsAssign base }) := by
  have hAnd : NodupKeys ((d0 :: rest).foldl jsAssign base) :=
    nodupKeys_merged d0 rest base
  by_cases hP : prune ((d0 :: rest).foldl jsAssign base) = []
  · have hfin1 : finalizeDoc i
        { deleted := false, snapData := (d0 :: rest).foldl jsAssign base } =
        none := by
      rw [finalizeDoc_mk, hP]
      rfl
    have hKempty : ∀ k, ¬∃ d ∈ d0 :: rest, k ∈ keysOf d := by
      intro k hex
      have hlp : lookupKV (prune ((d0 :: rest).foldl jsAssign base)) k =
          some (DVal.b true) := by
        rw [lookupKV_prune _ hAnd, lookupKV_merged_mem d0 rest base k hall hex]
        rfl
      rw [hP] at hlp
      exact Option.noConfusion hlp
    have hA2 : ∀ k, lookupKV ((d0 :: rest).foldl jsAssign
        ((none : Option Data).getD [])) k = none := by
      intro k
      rw [lookupKV_merged_not_mem d0 rest _ k
        (fun d hd hk => hKempty k ⟨d, hd, hk⟩)]
      rfl
    have hP2 : prune ((d0 :: rest).foldl jsAssign
        ((none : Option Data).getD [])) = [] := by
      apply eq_nil_of_lookupKV_none
      intro k
      cases hl : lookupKV (prune ((d0 :: rest).foldl jsAssign
          ((none : Option Data).getD []))) k with
      | none => rfl
      | some v =>
        have hmemP := mem_of_lookupKV _ _ _ hl
        have hmemA := ((mem_prune _ _).1 hmemP).1
        have hks : k ∈ keysOf ((d0 :: rest).foldl jsAssign
            ((none : Option Data).getD [])) :=
          List.mem_map.2 ⟨_, hmemA, rfl⟩
        have hsome := (lookupKV_isSome_iff _ k).2 hks
        rw [hA2 k] at hsome
        exact absurd hsome (by simp)
    rw [hfin1]
    have hfin2 : finalizeDoc i
        { deleted := false,
          snapData := (d0 :: rest).foldl jsAssign
            ((none : Option Data).getD []) } = none := by
      rw [finalizeDoc_mk, hP2]
      rfl
    rw [hfin2]
    exact docEquiv_refl none
  · have hie : (prune ((d0 :: rest).foldl jsAssign base)).isEmpty = false := by
      cases hb : (prune ((d0 :: rest).foldl jsAssign base)).isEmpty
      · rfl
      · exact absurd (List.isEmpty_iff.1 hb) hP
    have hfin1 : finalizeDoc i
        { deleted := false, snapData := (d0 :: rest).foldl jsAssign base } =
        some (setKey (prune ((d0 :: rest).foldl jsAssign base)) BUCKET_FIELD
          (DVal.s (getBucketFromId i))) := by
      rw [finalizeDoc_mk, if_neg (by rw [hie]; exact Bool.false_ne_true)]
    have hPnd : NodupKeys (prune ((d0 :: rest).foldl jsAssign base)) :=
      nodupKeys_prune _ hAnd
    rw [hfin1, Option.getD_some]
    apply idem_second i _ d0 rest hall
      (nodupKeys_setKey _ _ _ hPnd)
      (lookupKV_setKey_self _ _ _)
    · intro k v hk hlk
      rw [lookupKV_setKey_ne _ _ _ _ hk] at hlk
      exact lookupKV_prune_truthy _ k v hlk
    · intro k hk hx
      rw [lookupKV_setKey_ne _ _ _ _ hk, lookupKV_prune _ hAnd,
        lookupKV_merged_mem d0 rest base k hall hx]
      rfl
    · obtain ⟨kv0, hkv0⟩ :=
        List.exists_mem_of_ne_nil _ hP
      by_cases hkbf : kv0.1 = BUCKET_FIELD
      · by_cases hx : ∃ d ∈ d0 :: rest, BUCKET_FIELD ∈ keysOf d
        · exact Or.inr (Or.inl hx)
        · right; right
          have hkv0A := (mem_prune _ kv0).1 hkv0
          have hlk : lookupKV ((d0 :: rest).foldl jsAssign base) kv0.1 =
              some kv0.2 :=
            lookupKV_of_mem_nodup _ _ _ hAnd hkv0A.1
          rw [hkbf] at hlk
          rw [lookupKV_merged_not_mem d0 rest base _
            (fun d hd hk => hx ⟨d, hd, hk⟩)] at hlk
          have hmemb : (BUCKET_FIELD, kv0.2) ∈ base :=
            mem_objOf _ _ (mem_of_lookupKV _ _ _ hlk)
          have hval := hwfbase _ hmemb rfl
          rw [← hval]
          exact hkv0A.2
      · left
        refine ⟨kv0.1, hkbf, ?_⟩
        rw [lookupKV_setKey_ne _ _ _ _ hkbf]
        exact (lookupKV_isSome_iff _ _).2 (List.mem_map.2 ⟨kv0, hkv0, rfl⟩)

/-! ## Lemmas about the identifier codec -/

theorem splitOnSep_ne_nil : ∀ l : Str, splitOnSep l ≠ []
  | [] => by simp [splitOnSep]
  | c :: rest => by
    by_cases h : c = '.'
    · simp [splitOnSep, h]
    · have := splitOnSep_ne_nil rest
      simp only [splitOnSep, if_neg h]
      cases hs : splitOnSep rest with
      | nil => simp
      | cons seg segs => simp

theorem splitOnSep_cons_exists (l : Str) :
    ∃ seg segs, splitOnSep l = seg :: segs := by
  cases hs : splitOnSep l with
  | nil => exact absurd hs (splitOnSep_ne_nil l)
  | cons seg segs => exact ⟨seg, segs, rfl⟩

theorem getBucketFromId_getId (bucket key : Str) (h : '.' ∉ bucket) :
    getBucketFromId (getId bucket key) = bucket := by
  induction bucket with
  | nil => simp [getBucketFromId, getId, splitOnSep]
  | cons c bs ih =>
    have hc : c ≠ '.' := fun hc => h (hc ▸ List.mem_cons_self c bs)
    have hbs : '.' ∉ bs := fun hm => h (List.mem_cons_of_mem c hm)
    obtain ⟨seg, segs, hs⟩ := splitOnSep_cons_exists (getId bs key)
    have hhead : seg = bs := by
      have := ih hbs
      rw [getBucketFromId, hs] at this
      simpa using this
    show getBucketFromId (c :: getId bs key) = c :: bs
    rw [getBucketFromId, splitOnSep, if_neg hc, hs, hhead]
    simp

/-! ## Lemmas about `unions` -/

theorem updFn_self {β : Type} (r : Str → β) (k : Str) (v : β) :
    updFn r k v k = v := by
  rw [updFn, if_pos rfl]

theorem updFn_ne {β : Type} (r : Str → β) (k x : Str) (v : β) (h : x ≠ k) :
    updFn r k v x = r x := by
  rw [updFn, if_neg h]

theorem unionsInit_char (buckets : List Str) :
    ∀ (r0 : Str → Option (List Str)) (x : Str),
      (buckets.foldl (fun r b => updFn r b (some [])) r0) x =
        if x ∈ buckets then some [] else r0 x := by
  induction buckets with
  | nil => intro r0 x; simp
  | cons b0 rest ih =>
    intro r0 x
    rw [List.foldl_cons, ih]
    by_cases hx : x ∈ rest
    · rw [if_pos hx, if_pos (List.mem_cons_of_mem b0 hx)]
    · rw [if_neg hx]
      by_cases he : x = b0
      · subst he
        rw [updFn_self, if_pos (List.mem_cons_self x rest)]
      · rw [updFn_ne r0 b0 x _ he, if_neg (by simp [he, hx])]

theorem unionsInit_eq (buckets : List Str) (x : Str) :
    unionsInit buckets x = if x ∈ buckets then some [] else none := by
  rw [unionsInit, unionsInit_char]

theorem mem_foldl_append {α : Type} (L : List (List α)) :
    ∀ (acc : List α) (x : α),
      x ∈ L.foldl (fun all l => all ++ l) acc ↔
        x ∈ acc ∨ ∃ l ∈ L, x ∈ l := by
  induction L with
  | nil => intro acc x; simp
  | cons l0 rest ih =>
    intro acc x
    rw [List.foldl_cons, ih]
    constructor
    · rintro (h | ⟨l, hl, hx⟩)
      · rcases List.mem_append.1 h with h | h
        · exact Or.inl h
        · exact Or.inr ⟨l0, List.mem_cons_self l0 rest, h⟩
      · exact Or.inr ⟨l, List.mem_cons_of_mem l0 hl, hx⟩
    · rintro (h | ⟨l, hl, hx⟩)
      · exact Or.inl (List.mem_append.2 (Or.inl h))
      · rcases List.mem_cons.1 hl with rfl | hl'
        · exact Or.inl (List.mem_append.2 (Or.inr hx))
        · exact Or.inr ⟨l, hl', hx⟩

theorem mem_unionsDocIds (buckets keys : List Str) (i : Str) :
    i ∈ unionsDocIds buckets keys ↔
      ∃ b ∈ buckets, ∃ k ∈ keys, i = getId b k := by
  rw [unionsDocIds, mem_foldl_append]
  constructor
  · rintro (h | ⟨l, hl, hx⟩)
    · exact absurd h (by simp)
    · obtain ⟨b, hb, rfl⟩ := List.mem_map.1 hl
      obtain ⟨k, hk, he⟩ := List.mem_map.1 hx
      exact ⟨b, hb, k, hk, he.symm⟩
  · rintro ⟨b, hb, k, hk, rfl⟩
    refine Or.inr ⟨bucketIds b keys, List.mem_map.2 ⟨b, hb, rfl⟩, ?_⟩
    exact List.mem_map.2 ⟨k, hk, rfl⟩

theorem unionsFold_spec (ps : List (Str × Option Data)) :
    ∀ r : Str → Option (List Str),
      (∀ p ∈ ps, (r (getBucketFromId p.1)).isSome = true) →
      ∃ r', unionsFold r ps = some r' ∧
        (∀ x, (r' x).isSome = (r x).isSome) ∧
        (∀ x l, r x = some l → ∃ l', r' x = some l' ∧
          ∀ m, m ∈ l' ↔ m ∈ l ∨ ∃ p ∈ ps,
            getBucketFromId p.1 = x ∧ m ∈ snapToValues p.2) := by
  induction ps with
  | nil =>
    intro r _
    exact ⟨r, rfl, fun x => rfl, fun x l hl => ⟨l, hl, by simp⟩⟩
  | cons p0 ps ih =>
    intro r hr
    obtain ⟨cur, hcur⟩ := Option.isSome_iff_exists.1
      (hr p0 (List.mem_cons_self p0 ps))
    have hstep : unionsStep r p0 = some (updFn r (getBucketFromId p0.1)
        (some (cur ++ snapToValues p0.2))) := by
      unfold unionsStep
      rw [hcur]
    have hr1some : ∀ x,
        ((updFn r (getBucketFromId p0.1)
          (some (cur ++ snapToValues p0.2))) x).isSome = (r x).isSome := by
      intro x
      by_cases hx : x = getBucketFromId p0.1
      · subst hx
        rw [updFn_self, hcur]
        rfl
      · rw [updFn_ne _ _ _ _ hx]
    obtain ⟨r', hfold, hsome, hval⟩ := ih
      (updFn r (getBucketFromId p0.1) (some (cur ++ snapToValues p0.2)))
      (fun p hp => by
        rw [hr1some]
        exact hr p (List.mem_cons_of_mem p0 hp))
    refine ⟨r', ?_, ?_, ?_⟩
    · rw [unionsFold, hstep]
      exact hfold
    · intro x
      rw [hsome x, hr1some x]
    · intro x l hl
      by_cases hx : getBucketFromId p0.1 = x
      · have hlcur : l = cur := by
          rw [← hx] at hl
          rw [hl] at hcur
          injection hcur
        have hr1x : (updFn r (getBucketFromId p0.1)
            (some (cur ++ snapToValues p0.2))) x =
            some (cur ++ snapToValues p0.2) := by
          rw [← hx, updFn_self]
        obtain ⟨l', hl', hm⟩ := hval x _ hr1x
        refine ⟨l', hl', fun m => ?_⟩
        rw [hm m]
        constructor
        · rintro (hmem | ⟨p, hp, hd, hms⟩)
          · rcases List.mem_append.1 hmem with h | h
            · exact Or.inl (hlcur ▸ h)
            · exact Or.inr ⟨p0, List.mem_cons_self p0 ps, hx, h⟩
          · exact Or.inr ⟨p, List.mem_cons_of_mem p0 hp, hd, hms⟩
        · rintro (hmem | ⟨p, hp, hd, hms⟩)
          · exact Or.inl (List.mem_append.2 (Or.inl (hlcur ▸ hmem)))
          · rcases List.mem_cons.1 hp with rfl | hp'
            · exact Or.inl (List.mem_append.2 (Or.inr hms))
            · exact Or.inr ⟨p, hp', hd, hms⟩
      · have hr1x : (updFn r (getBucketFromId p0.1)
            (some (cur ++ snapToValues p0.2))) x = r x :=
          updFn_ne _ _ _ _ (fun h => hx h.symm)
        obtain ⟨l', hl', hm⟩ := hval x l (by rw [hr1x]; exact hl)
        refine ⟨l', hl', fun m => ?_⟩
        rw [hm m]
        constructor
        · rintro (h | ⟨p, hp, hd, hms⟩)
          · exact Or.inl h
          · exact Or.inr ⟨p, List.mem_cons_of_mem p0 hp, hd, hms⟩
        · rintro (h | ⟨p, hp, hd, hms⟩)
          · exact Or.inl h
          · rcases List.mem_cons.1 hp with rfl | hp'
            · exact absurd hd hx
            · exact Or.inr ⟨p, hp', hd, hms⟩

theorem unionsDedup_not_mem (buckets : List Str) :
    ∀ (r : Str → Option (List Str)) (x : Str), x ∉ buckets →
      unionsDedup buckets r x = r x := by
  induction buckets with
  | nil => intro r x _; rfl
  | cons b0 rest ih =>
    intro r x hx
    have h1 : x ≠ b0 := fun he => hx (he ▸ List.mem_cons_self b0 rest)
    have h2 : x ∉ rest := fun hm => hx (List.mem_cons_of_mem b0 hm)
    show unionsDedup rest
      (updFn r b0 (some (jsDedup ((r b0).getD [])))) x = r x
    rw [ih _ x h2, updFn_ne _ _ _ _ h1]

theorem unionsDedup_mem (buckets : List Str) :
    ∀ (r : Str → Option (List Str)) (b : Str), b ∈ buckets →
      ∃ l, unionsDedup buckets r b = some l ∧ l.Nodup ∧
        ∀ m, m ∈ l ↔ m ∈ (r b).getD [] := by
  induction buckets with
  | nil => intro r b hb; exact absurd hb (by simp)
  | cons b0 rest ih =>
    intro r b hb
    by_cases hbr : b ∈ rest
    · obtain ⟨l, hl, hnd, hm⟩ := ih
        (updFn r b0 (some (jsDedup ((r b0).getD [])))) b hbr
      refine ⟨l, hl, hnd, fun m => ?_⟩
      rw [hm m]
      by_cases he : b = b0
      · subst he
        rw [updFn_self, Option.getD_some, mem_jsDedup]
      · rw [updFn_ne _ _ _ _ he]
    · have hb0 : b = b0 := by
        rcases List.mem_cons.1 hb with h | h
        · exact h
        · exact absurd h hbr
      subst hb0
      refine ⟨jsDedup ((r b).getD []), ?_, nodup_jsDedup _,
        fun m => mem_jsDedup _ m⟩
      show unionsDedup rest (updFn r b (some (jsDedup ((r b).getD [])))) b =
        some (jsDedup ((r b).getD []))
      rw [unionsDedup_not_mem rest _ b hbr, updFn_self]

/-! ## C8 and C9 -/

/-- C8: for every bucket string not containing the separator `'.'` and
every (string-normalized) key, decoding the bucket from the encoded
StorageId recovers the original bucket:
`getBucketFromId (getId bucket key) = bucket`. -/
theorem C8_decode_bucket_roundtrip (bucket key : Str) (h : '.' ∉ bucket) :
    getBucketFromId (getId bucket key) = bucket :=
  getBucketFromId_getId bucket key h

theorem C8_decode_bucket_roundtrip_witness :
    '.' ∉ "roles".toList ∧
      getBucketFromId (getId "roles".toList "42".toList) = "roles".toList :=
  ⟨by decide, C8_decode_bucket_roundtrip "roles".toList "42".toList (by decide)⟩

/-- C9: `get` on a bucket/key whose document does not exist returns the
empty set; absence is not an error. -/
theorem C9_get_absent_empty (s : Store) (bucket key : Str)
    (h : s (getId bucket key) = none) : get s bucket key = [] := by
  unfold get
  rw [h]

theorem C9_get_absent_empty_witness :
    (fun _ : Str => (none : Option Data)) (getId "b".toList "k".toList) = none ∧
      get (fun _ => none) "b".toList "k".toList = [] :=
  ⟨rfl, C9_get_absent_empty (fun _ => none) "b".toList "k".toList rfl⟩

/-! ## C3: update after delete fails the whole batch -/

/-- C3: a batch containing a `delete` operation for some StorageId
followed later in the batch by an `update` operation for the same
StorageId fails commit entirely (the `assert.ok(!doc.deleted)` throws
inside the transaction): no staged writes are produced and no document in
the store is modified. -/
theorem C3_update_after_delete_fails (s : Store)
    (l₁ l₂ l₃ : List Operation) (opd opu : Operation)
    (hd : opd.type = .delete) (hu : opu.type = .update)
    (hid : opu.id = opd.id) :
    endWrites s (l₁ ++ opd :: (l₂ ++ opu :: l₃)) = none ∧
      ∀ x, endState s (l₁ ++ opd :: (l₂ ++ opu :: l₃)) x = s x := by
  have h := foldOps_update_after_delete l₁ l₂ l₃ opd opu hd hu hid (initDocs s)
  have hw := endWrites_none_of_foldOps s _ h
  exact ⟨hw, fun x => by rw [endState_of_none s _ hw]⟩

theorem C3_update_after_delete_fails_witness :
    endWrites (fun _ => none)
        (add (del beginBatch "b".toList ["k".toList])
          "b".toList "k".toList ["x".toList]) = none ∧
      ∀ x, endState (fun _ => none)
        (add (del beginBatch "b".toList ["k".toList])
          "b".toList "k".toList ["x".toList]) x = (fun _ => none : Store) x := by
  have hlist : add (del beginBatch "b".toList ["k".toList])
      "b".toList "k".toList ["x".toList] =
      [] ++ ({ id := getId "b".toList "k".toList, type := .delete,
               data := [] } : Operation) ::
        ([] ++ ({ id := getId "b".toList "k".toList, type := .update,
                  data := dataOfValues true ["x".toList] } : Operation) :: []) :=
    rfl
  rw [hlist]
  exact C3_update_after_delete_fails (fun _ => none) [] [] [] _ _ rfl rfl rfl

/-! ## C4: a trailing delete wins -/

/-- C4: if a successfully committed batch contains a `delete` operation
for a StorageId, that id's document is deleted by the commit, regardless
of member flags merged by `update` operations earlier in the batch (an
`update` after the `delete` would have failed the batch instead).  This
covers in particular every id whose last operation in the batch is the
`delete`. -/
theorem C4_delete_wins (s : Store) (ops : List Operation)
    (ws : List (Str × Option Data)) (op : Operation)
    (hok : endWrites s ops = some ws) (hmem : op ∈ ops)
    (hty : op.type = .delete) :
    endState s ops op.id = none := by
  unfold endWrites at hok
  cases hf : foldOps (initDocs s) ops with
  | none =>
    rw [hf] at hok
    exact Option.noConfusion hok
  | some w =>
    have hdel : (w op.id).deleted = true :=
      foldOps_delete_deleted ops (initDocs s) w hf op hmem hty
    rw [endState_char s ops w hf op.id,
      if_pos ((mem_collectIds ops op.id).2 ⟨op, hmem, rfl⟩),
      finalizeDoc_deleted op.id (w op.id) hdel]

theorem C4_delete_wins_witness :
    endWrites (fun _ => none)
        (del (add beginBatch "b".toList "k".toList ["a".toList])
          "b".toList ["k".toList]) =
      some [(getId "b".toList "k".toList, none)] ∧
      endState (fun _ => none)
        (del (add beginBatch "b".toList "k".toList ["a".toList])
          "b".toList ["k".toList]) (getId "b".toList "k".toList) = none :=
  ⟨by decide,
    C4_delete_wins (fun _ => none)
      (del (add beginBatch "b".toList "k".toList ["a".toList])
        "b".toList ["k".toList])
      [(getId "b".toList "k".toList, none)]
      { id := getId "b".toList "k".toList, type := .delete, data := [] }
      (by decide) (by decide) rfl⟩

/-! ## C10: one staged write per referenced id, frame property -/

/-- C10: a successful commit stages writes exactly for the StorageIds
referenced by the batch — the staged-write id list equals the
de-duplicated (first-occurrence) operation id list, without duplicates,
so exactly one staged write (a delete or a set, by the shape of the
staged-write payload) per referenced id — and every document whose id is
not referenced by any operation is left unchanged. -/
theorem C10_one_write_per_id_frame (s : Store) (ops : List Operation)
    (ws : List (Str × Option Data)) (hok : endWrites s ops = some ws) :
    ws.map Prod.fst = collectIds ops ∧
      (collectIds ops).Nodup ∧
      (∀ i, i ∈ collectIds ops ↔ ∃ op ∈ ops, op.id = i) ∧
      (∀ i, (∀ op ∈ ops, op.id ≠ i) → endState s ops i = s i) := by
  unfold endWrites at hok
  cases hf : foldOps (initDocs s) ops with
  | none =>
    rw [hf] at hok
    exact Option.noConfusion hok
  | some w =>
    rw [hf] at hok
    have hws := Option.some.inj hok
    refine ⟨?_, nodup_collectIds ops, fun i => mem_collectIds ops i, ?_⟩
    · rw [← hws, List.map_map]
      have h : (Prod.fst ∘ fun i => (i, finalizeDoc i (w i))) =
          fun i : Str => i := rfl
      rw [h]
      simp
    · intro i hni
      rw [endState_char s ops w hf i, if_neg]
      rw [mem_collectIds]
      rintro ⟨op, hop, rfl⟩
      exact hni op hop rfl

theorem C10_one_write_per_id_frame_witness :
    endWrites (fun _ => none)
        (add beginBatch "b".toList "k".toList ["x".toList]) =
      some [(getId "b".toList "k".toList,
        some [("x".toList, DVal.b true), (BUCKET_FIELD, DVal.s "b".toList)])] ∧
      (∀ i, (∀ op ∈ add beginBatch "b".toList "k".toList ["x".toList],
          op.id ≠ i) →
        endState (fun _ => none)
          (add beginBatch "b".toList "k".toList ["x".toList]) i =
          (fun _ => none : Store) i) := by
  refine ⟨by decide, ?_⟩
  exact (C10_one_write_per_id_frame (fun _ => none)
    (add beginBatch "b".toList "k".toList ["x".toList])
    [(getId "b".toList "k".toList,
      some [("x".toList, DVal.b true), (BUCKET_FIELD, DVal.s "b".toList)])]
    (by decide)).2.2.2

/-! ## C5: add then get returns exactly the member set -/

/-- C5: for every bucket, key and member set `M` none of whose members
equals the reserved bucket attribute, starting from a store with no
document for that bucket/key, committing the batch built by
`add(begin(), bucket, key, M)` succeeds and a subsequent
`get(bucket, key)` returns exactly the set `M` (set equality,
order-independent). -/
theorem C5_add_commit_get (s : Store) (bucket key : Str) (M : List Str)
    (habs : s (getId bucket key) = none)
    (hM : ∀ m ∈ M, m ≠ BUCKET_FIELD) :
    (endWrites s (add beginBatch bucket key M)).isSome = true ∧
      ∀ m, m ∈ get (endState s (add beginBatch bucket key M)) bucket key ↔
        m ∈ M := by
  have hops : add beginBatch bucket key M =
      [{ id := getId bucket key, type := .update,
         data := dataOfValues true M }] := rfl
  rw [hops]
  refine ⟨endWrites_single_update_isSome s _ _, ?_⟩
  intro m
  have hstate := endState_single_update s (getId bucket key)
    (dataOfValues true M)
  rw [habs, Option.getD_none] at hstate
  cases M with
  | nil =>
    have hnone : endState s
        [{ id := getId bucket key, type := .update,
           data := dataOfValues true [] }] (getId bucket key) = none := by
      rw [hstate]
      rfl
    unfold get
    rw [hnone]
  | cons m0 M' =>
    have hAnodup : NodupKeys (jsAssign [] (dataOfValues true (m0 :: M'))) :=
      nodupKeys_jsAssign _ _
    have hPmem : ∀ k ∈ m0 :: M',
        lookupKV (prune (jsAssign [] (dataOfValues true (m0 :: M')))) k =
          some (DVal.b true) := by
      intro k hk
      rw [lookupKV_prune _ hAnodup,
        lookupKV_jsAssign_nil_dataOfValues_mem true (m0 :: M') k hk]
      rfl
    have hPnot : ∀ k, k ∉ m0 :: M' →
        lookupKV (prune (jsAssign [] (dataOfValues true (m0 :: M')))) k =
          none := by
      intro k hk
      rw [lookupKV_prune _ hAnodup,
        lookupKV_jsAssign_nil_dataOfValues_not_mem true (m0 :: M') k hk]
    have hne : prune (jsAssign [] (dataOfValues true (m0 :: M'))) ≠ [] := by
      intro h
      have := hPmem m0 (List.mem_cons_self m0 M')
      rw [h] at this
      exact Option.noConfusion this
    have hie : (prune (jsAssign [] (dataOfValues true (m0 :: M')))).isEmpty =
        false := by
      cases hb : (prune (jsAssign [] (dataOfValues true (m0 :: M')))).isEmpty
      · rfl
      · exact absurd (List.isEmpty_iff.1 hb) hne
    have hsome : endState s
        [{ id := getId bucket key, type := .update,
           data := dataOfValues true (m0 :: M') }] (getId bucket key) =
        some (setKey (prune (jsAssign [] (dataOfValues true (m0 :: M'))))
          BUCKET_FIELD (.s (getBucketFromId (getId bucket key)))) := by
      rw [hstate, finalizeDoc_mk]
      rw [if_neg (by rw [hie]; exact Bool.false_ne_true)]
    have hget : get (endState s
        [{ id := getId bucket key, type := .update,
           data := dataOfValues true (m0 :: M') }]) bucket key =
        snapToValues (some (setKey
          (prune (jsAssign [] (dataOfValues true (m0 :: M'))))
          BUCKET_FIELD (.s (getBucketFromId (getId bucket key))))) := by
      unfold get
      rw [hsome]
    rw [hget, mem_snapToValues, Option.getD_some]
    constructor
    · rintro ⟨hmne, hmk⟩
      by_cases hm : m ∈ m0 :: M'
      · exact hm
      · exfalso
        have hks : (lookupKV (setKey
            (prune (jsAssign [] (dataOfValues true (m0 :: M'))))
            BUCKET_FIELD (.s (getBucketFromId (getId bucket key)))) m).isSome =
            true := (lookupKV_isSome_iff _ m).2 hmk
        rw [lookupKV_setKey_ne _ _ _ _ hmne, hPnot m hm] at hks
        exact Bool.false_ne_true hks
    · intro hm
      refine ⟨hM m hm, ?_⟩
      rw [← lookupKV_isSome_iff,
        lookupKV_setKey_ne _ _ _ _ (hM m hm), hPmem m hm]
      rfl

theorem C5_add_commit_get_witness :
    ((fun _ => none : Store) (getId "b".toList "k".toList) = none ∧
      ∀ m ∈ ["x".toList, "y".toList], m ≠ BUCKET_FIELD) ∧
    (endWrites (fun _ => none)
        (add beginBatch "b".toList "k".toList
          ["x".toList, "y".toList])).isSome = true ∧
      ∀ m, m ∈ get (endState (fun _ => none)
          (add beginBatch "b".toList "k".toList ["x".toList, "y".toList]))
          "b".toList "k".toList ↔ m ∈ ["x".toList, "y".toList] :=
  ⟨⟨rfl, by decide⟩,
    C5_add_commit_get (fun _ => none) "b".toList "k".toList
      ["x".toList, "y".toList] rfl (by decide)⟩

/-! ## C2: `union` leaks the reserved bucket attribute (code bug) -/

/-- Store holding b1/k1 ↦ {a, b} and b1/k2 ↦ {b, c}, built by the
backend's own `add`/commit path. -/
def c2Store : Store :=
  endState
    (endState (fun _ => none)
      (add beginBatch "b1".toList "k1".toList ["a".toList, "b".toList]))
    (add beginBatch "b1".toList "k2".toList ["b".toList, "c".toList])

/-- C2: on documents the backend itself wrote with members {a,b} and
{b,c}, `union` does NOT return {a,b,c}: unlike `get` and `unions`, the
`union` implementation concatenates `Object.keys(docSnap.data())` without
removing the reserved `@@bucket` attribute, so the reserved attribute
leaks into the result.  `get` on the same documents correctly excludes
it. -/
theorem C2_union_leaks_bucket_field :
    union c2Store "b1".toList ["k1".toList, "k2".toList] =
      ["a".toList, "b".toList, BUCKET_FIELD, "c".toList] ∧
    BUCKET_FIELD ∈ union c2Store "b1".toList ["k1".toList, "k2".toList] ∧
    get c2Store "b1".toList "k1".toList = ["a".toList, "b".toList] ∧
    get c2Store "b1".toList "k2".toList = ["b".toList, "c".toList] := by
  decide

/-! ## C1: removing all members (corrected) -/

/-- Store reached by adding member `x` for bucket `b`, key `k`, via the
backend's own `add`/commit path. -/
def c1Store : Store :=
  endState (fun _ => none)
    (add beginBatch "b".toList "k".toList ["x".toList])

/-- C1, counterexample to the claim as stated: the stored document for
b/k has the non-empty member set `{x}`; committing the batch built by
`remove` covering every present member makes a subsequent `get` return
the empty set, but the underlying document still EXISTS afterwards — it
retains the reserved bucket attribute, whose truthy string value survives
the falsy-pruning loop, so the save phase takes the `tx.set` branch, not
`tx.delete`. -/
theorem C1_remove_all_counterexample :
    get c1Store "b".toList "k".toList = ["x".toList] ∧
    get (endState c1Store
        (remove beginBatch "b".toList "k".toList ["x".toList]))
      "b".toList "k".toList = [] ∧
    endState c1Store (remove beginBatch "b".toList "k".toList ["x".toList])
        (getId "b".toList "k".toList) =
      some [(BUCKET_FIELD, DVal.s "b".toList)] := by
  decide

/-- C1 amended: for a stored document `d` (duplicate-free attributes,
reserved bucket attribute present with a truthy value, as in every
document the backend writes under a non-empty bucket name):
(i) committing the batch built by `remove` covering every member of `d`
makes `get` return the empty set, but the document still exists and
contains exactly the reserved bucket attribute;
(ii) committing the batch built by `deleteKeys` deletes the document and
`get` returns the empty set. -/
theorem C1_remove_all_amended (s : Store) (bucket key : Str) (d : Data)
    (v0 : DVal) (values : List Str)
    (hdoc : s (getId bucket key) = some d)
    (hnd : NodupKeys d)
    (hbf : lookupKV d BUCKET_FIELD = some v0)
    (hv0 : v0.truthy = true)
    (hcover : ∀ k ∈ keysOf d, k ≠ BUCKET_FIELD → k ∈ values)
    (hbfv : BUCKET_FIELD ∉ values) :
    (endState s (remove beginBatch bucket key values) (getId bucket key) =
        some [(BUCKET_FIELD, DVal.s (getBucketFromId (getId bucket key)))] ∧
      get (endState s (remove beginBatch bucket key values)) bucket key
        = []) ∧
    (endState s (del beginBatch bucket [key]) (getId bucket key) = none ∧
      get (endState s (del beginBatch bucket [key])) bucket key = []) := by
  have hops : remove beginBatch bucket key values =
      [{ id := getId bucket key, type := .update,
         data := dataOfValues false values }] := rfl
  have hstate := endState_single_update s (getId bucket key)
    (dataOfValues false values)
  rw [hdoc, Option.getD_some] at hstate
  have hAnd : NodupKeys (jsAssign d (dataOfValues false values)) :=
    nodupKeys_jsAssign _ _
  have hbfkeys : BUCKET_FIELD ∉ keysOf (dataOfValues false values) :=
    fun h => hbfv ((mem_keysOf_dataOfValues false values BUCKET_FIELD).1 h)
  have hABF : lookupKV (jsAssign d (dataOfValues false values))
      BUCKET_FIELD = some v0 := by
    rw [lookupKV_jsAssign_not_mem d _ BUCKET_FIELD hbfkeys hnd]
    exact hbf
  have hPBF : lookupKV (prune (jsAssign d (dataOfValues false values)))
      BUCKET_FIELD = some v0 := by
    rw [lookupKV_prune _ hAnd, hABF]
    simp [hv0]
  have hPmem : (BUCKET_FIELD, v0) ∈
      prune (jsAssign d (dataOfValues false values)) :=
    mem_of_lookupKV _ _ _ hPBF
  have hPall : ∀ kv ∈ prune (jsAssign d (dataOfValues false values)),
      kv.1 = BUCKET_FIELD := by
    intro kv hkv
    obtain ⟨hkvA, htr⟩ := (mem_prune _ kv).1 hkv
    by_contra hne
    have hlk : lookupKV (jsAssign d (dataOfValues false values)) kv.1 =
        some kv.2 := lookupKV_of_mem_nodup _ kv.1 kv.2 hAnd hkvA
    by_cases hv : kv.1 ∈ values
    · rw [lookupKV_jsAssign_mem_const d _ kv.1 (DVal.b false)
        (fun kv' h' => (mem_dataOfValues false values kv' h').2)
        ((mem_keysOf_dataOfValues false values kv.1).2 hv)] at hlk
      have hkv2 : DVal.b false = kv.2 := by injection hlk
      rw [← hkv2] at htr
      exact Bool.false_ne_true htr
    · rw [lookupKV_jsAssign_not_mem d _ kv.1
        (fun h => hv ((mem_keysOf_dataOfValues false values kv.1).1 h))
        hnd] at hlk
      exact hv (hcover kv.1 (mem_keysOf_of_lookupKV d kv.1 kv.2 hlk) hne)
  have hPsing : prune (jsAssign d (dataOfValues false values)) =
      [(BUCKET_FIELD, v0)] :=
    eq_singleton_of_nodupKeys _ _ _ (nodupKeys_prune _ hAnd) hPmem hPall
  have hfin : finalizeDoc (getId bucket key)
      { deleted := false,
        snapData := jsAssign d (dataOfValues false values) } =
      some [(BUCKET_FIELD,
        DVal.s (getBucketFromId (getId bucket key)))] := by
    rw [finalizeDoc_mk, hPsing, if_neg (by simp), setKey_singleton_self]
  have hstate2 : endState s (remove beginBatch bucket key values)
      (getId bucket key) =
      some [(BUCKET_FIELD, DVal.s (getBucketFromId (getId bucket key)))] := by
    rw [hops]
    exact hstate.trans hfin
  have hgetr : get (endState s (remove beginBatch bucket key values))
      bucket key = [] := by
    unfold get
    rw [hstate2]
    show keysOf (removeKey
      ((some [(BUCKET_FIELD,
        DVal.s (getBucketFromId (getId bucket key)))]).getD [])
      BUCKET_FIELD) = []
    rw [Option.getD_some, removeKey_singleton_self]
    rfl
  have hops2 : del beginBatch bucket [key] =
      [{ id := getId bucket key, type := .delete, data := [] }] := rfl
  have hdel : endState s (del beginBatch bucket [key])
      (getId bucket key) = none := by
    rw [hops2]
    exact endState_single_delete s (getId bucket key)
  have hgetd : get (endState s (del beginBatch bucket [key])) bucket key
      = [] := by
    unfold get
    rw [hdel]
  exact ⟨⟨hstate2, hgetr⟩, ⟨hdel, hgetd⟩⟩

theorem C1_remove_all_amended_witness :
    (endState c1Store
        (remove beginBatch "b".toList "k".toList ["x".toList])
        (getId "b".toList "k".toList) =
      some [(BUCKET_FIELD, DVal.s (getBucketFromId
        (getId "b".toList "k".toList)))] ∧
      get (endState c1Store
        (remove beginBatch "b".toList "k".toList ["x".toList]))
        "b".toList "k".toList = []) ∧
    (endState c1Store (del beginBatch "b".toList ["k".toList])
        (getId "b".toList "k".toList) = none ∧
      get (endState c1Store (del beginBatch "b".toList ["k".toList]))
        "b".toList "k".toList = []) :=
  C1_remove_all_amended c1Store "b".toList "k".toList
    [("x".toList, DVal.b true), (BUCKET_FIELD, DVal.s "b".toList)]
    (DVal.s "b".toList) ["x".toList]
    (by decide) (by decide) (by decide) (by decide) (by decide) (by decide)

/-! ## C7: `unions` groups translated member sets per input bucket -/

/-- C7: for every list of buckets (none containing the separator `'.'`)
and every list of keys, `unions(buckets, keys)` succeeds and returns a
result object whose key set is exactly the input bucket list — a bucket
with no matching documents maps to the empty set — and whose value for
each input bucket is the duplicate-free union of the translated member
sets (`snapToValues`, reserved attribute excluded, missing documents
contributing nothing) of the fetched documents grouped under that
bucket. -/
theorem C7_unions_spec (s : Store) (buckets keys : List Str)
    (hb : ∀ b ∈ buckets, '.' ∉ b) :
    ∃ r, unions s buckets keys = some r ∧
      (∀ x, (r x).isSome = true ↔ x ∈ buckets) ∧
      (∀ b ∈ buckets, ∃ l, r b = some l ∧ l.Nodup ∧
        ∀ m, m ∈ l ↔ ∃ k ∈ keys, m ∈ snapToValues (s (getId b k))) := by
  have hps : ∀ p ∈ (unionsDocIds buckets keys).map (fun i => (i, s i)),
      ((unionsInit buckets) (getBucketFromId p.1)).isSome = true := by
    intro p hp
    obtain ⟨i, hi, rfl⟩ := List.mem_map.1 hp
    obtain ⟨b, hbm, k, hk, rfl⟩ := (mem_unionsDocIds buckets keys i).1 hi
    show ((unionsInit buckets) (getBucketFromId (getId b k))).isSome = true
    rw [getBucketFromId_getId b k (hb b hbm), unionsInit_eq, if_pos hbm]
    rfl
  obtain ⟨r1, hfold, hsome, hval⟩ :=
    unionsFold_spec _ (unionsInit buckets) hps
  refine ⟨unionsDedup buckets r1, ?_, ?_, ?_⟩
  · unfold unions
    rw [hfold]
  · intro x
    by_cases hx : x ∈ buckets
    · obtain ⟨l, hl, _, _⟩ := unionsDedup_mem buckets r1 x hx
      rw [hl]
      simp [hx]
    · rw [unionsDedup_not_mem buckets r1 x hx, hsome x, unionsInit_eq,
        if_neg hx]
      simp [hx]
  · intro b hbm
    obtain ⟨l, hl, hnd, hm⟩ := unionsDedup_mem buckets r1 b hbm
    have hinitb : unionsInit buckets b = some [] := by
      rw [unionsInit_eq, if_pos hbm]
    obtain ⟨l1, hl1, hm1⟩ := hval b [] hinitb
    refine ⟨l, hl, hnd, fun m => ?_⟩
    rw [hm m, hl1, Option.getD_some, hm1 m]
    simp only [List.not_mem_nil, false_or]
    constructor
    · rintro ⟨p, hp, hd, hms⟩
      obtain ⟨i, hi, rfl⟩ := List.mem_map.1 hp
      obtain ⟨b', hb', k, hk, rfl⟩ := (mem_unionsDocIds buckets keys i).1 hi
      have hd2 : getBucketFromId (getId b' k) = b := hd
      have hms2 : m ∈ snapToValues (s (getId b' k)) := hms
      rw [getBucketFromId_getId b' k (hb b' hb')] at hd2
      subst hd2
      exact ⟨k, hk, hms2⟩
    · rintro ⟨k, hk, hms⟩
      refine ⟨(getId b k, s (getId b k)), List.mem_map.2
        ⟨getId b k,
          (mem_unionsDocIds buckets keys _).2 ⟨b, hbm, k, hk, rfl⟩, rfl⟩,
        getBucketFromId_getId b k (hb b hbm), hms⟩

/-- Store holding only b1/k ↦ {x}, built by the backend's own commit. -/
def c7Store : Store :=
  endState (fun _ => none)
    (add beginBatch "b1".toList "k".toList ["x".toList])

theorem C7_unions_spec_witness :
    (∀ b ∈ ["b1".toList, "b2".toList], '.' ∉ b) ∧
    ∃ r, unions c7Store ["b1".toList, "b2".toList] ["k".toList] = some r ∧
      (∀ x, (r x).isSome = true ↔ x ∈ ["b1".toList, "b2".toList]) ∧
      (∀ b ∈ ["b1".toList, "b2".toList], ∃ l, r b = some l ∧ l.Nodup ∧
        ∀ m, m ∈ l ↔ ∃ k ∈ ["k".toList],
          m ∈ snapToValues (c7Store (getId b k))) :=
  ⟨by decide, C7_unions_spec c7Store ["b1".toList, "b2".toList]
    ["k".toList] (by decide)⟩

/-! ## C6: committing the same add-only batch twice -/

/-- C6: committing a batch consisting only of `add`-built operations
(`update` operations whose payload flags are all `true`) twice in
succession leaves every StorageId's stored document in the same state
(same existence and same attribute mapping) as committing it once — the
second commit is a no-op on the resulting state — and hence `get`
returns the same member set everywhere.  The hypothesis on the store says
each stored document's reserved bucket attribute, when present, holds its
id's decoded bucket: the invariant every backend-written store
satisfies. -/
theorem C6_add_batch_idempotent (s : Store) (ops : List Operation)
    (h1 : ∀ op ∈ ops, op.type = OpType.update ∧
      ∀ kv ∈ op.data, kv.2 = DVal.b true)
    (h2 : ∀ i d, s i = some d → ∀ kv ∈ d, kv.1 = BUCKET_FIELD →
      kv.2 = DVal.s (getBucketFromId i)) :
    (endWrites s ops).isSome = true ∧
    (endWrites (endState s ops) ops).isSome = true ∧
    (∀ i, docEquiv (endState (endState s ops) ops i) (endState s ops i)) ∧
    (∀ bucket key m,
      m ∈ get (endState (endState s ops) ops) bucket key ↔
        m ∈ get (endState s ops) bucket key) := by
  have hops_up : ∀ op ∈ ops, op.type = OpType.update :=
    fun op h => (h1 op h).1
  obtain ⟨w, hfold, hch⟩ := foldOps_all_update ops hops_up (initDocs s)
    (fun i => rfl)
  obtain ⟨w2, hfold2, hch2⟩ := foldOps_all_update ops hops_up
    (initDocs (endState s ops)) (fun i => rfl)
  have hok1 := endWrites_of_foldOps s ops w hfold
  have hok2 := endWrites_of_foldOps (endState s ops) ops w2 hfold2
  have hchar1 := endState_char s ops w hfold
  have hchar2 := endState_char (endState s ops) ops w2 hfold2
  have hDE : ∀ i, docEquiv (endState (endState s ops) ops i)
      (endState s ops i) := by
    intro i
    by_cases hi : i ∈ collectIds ops
    · have hnenil : datasFor i ops ≠ [] :=
        datasFor_ne_nil i ops ((mem_collectIds ops i).1 hi)
      cases hdF : datasFor i ops with
      | nil => exact absurd hdF hnenil
      | cons d0 restD =>
        obtain ⟨hdel1, hsnap1⟩ := hch i
        obtain ⟨hdel2, hsnap2⟩ := hch2 i
        have hwi : w i =
            { deleted := false,
              snapData := (d0 :: restD).foldl jsAssign ((s i).getD []) } := by
          rw [show w i =
              { deleted := (w i).deleted, snapData := (w i).snapData }
            from rfl, hdel1, hsnap1, hdF]
          rfl
        have hwi2 : w2 i =
            { deleted := false,
              snapData := (d0 :: restD).foldl jsAssign
                ((endState s ops i).getD []) } := by
          rw [show w2 i =
              { deleted := (w2 i).deleted, snapData := (w2 i).snapData }
            from rfl, hdel2, hsnap2, hdF]
          rfl
        have hs1 : endState s ops i = finalizeDoc i
            { deleted := false,
              snapData := (d0 :: restD).foldl jsAssign ((s i).getD []) } := by
          rw [hchar1 i, if_pos hi, hwi]
        have hs2 : endState (endState s ops) ops i = finalizeDoc i
            { deleted := false,
              snapData := (d0 :: restD).foldl jsAssign
                ((endState s ops i).getD []) } := by
          rw [hchar2 i, if_pos hi, hwi2]
        have hall : ∀ d ∈ d0 :: restD, ∀ kv ∈ d, kv.2 = DVal.b true := by
          intro d hd kv hkv
          rw [← hdF] at hd
          obtain ⟨op, hopf, hde⟩ := List.mem_map.1 hd
          have hop : op ∈ ops := (List.mem_filter.1 hopf).1
          rw [← hde] at hkv
          exact (h1 op hop).2 kv hkv
        have hwfbase : ∀ kv ∈ (s i).getD [], kv.1 = BUCKET_FIELD →
            kv.2 = DVal.s (getBucketFromId i) := by
          cases hsi : s i with
          | none => intro kv hkv; exact absurd hkv (List.not_mem_nil kv)
          | some d => intro kv hkv hbf; exact h2 i d hsi kv hkv hbf
        rw [hs2, hs1]
        exact idem_core i ((s i).getD []) d0 restD hall hwfbase
    · have he2 : endState (endState s ops) ops i = endState s ops i := by
        rw [hchar2 i, if_neg hi]
      rw [he2]
      exact docEquiv_refl _
  refine ⟨?_, ?_, hDE, fun bucket key m => get_mem_congr _ _ hDE bucket key m⟩
  · rw [hok1]
    rfl
  · rw [hok2]
    rfl

theorem C6_add_batch_idempotent_witness :
    (∀ op ∈ add beginBatch "b".toList "k".toList ["x".toList],
      op.type = OpType.update ∧ ∀ kv ∈ op.data, kv.2 = DVal.b true) ∧
    (∀ i, docEquiv
      (endState (endState (fun _ => none)
          (add beginBatch "b".toList "k".toList ["x".toList]))
        (add beginBatch "b".toList "k".toList ["x".toList]) i)
      (endState (fun _ => none)
        (add beginBatch "b".toList "k".toList ["x".toList]) i)) :=
  ⟨by decide,
    (C6_add_batch_idempotent (fun _ => none)
      (add beginBatch "b".toList "k".toList ["x".toList])
      (by decide) (fun _ _ h => nomatch h)).2.2.1⟩

end AclFirestore
